import Mathlib

/-!
Verification of the debugger-driving test engine in
`test-framework/dbt/src/debugger.rs`.

The engine synthesizes per-backend debugger scripts from a directive
sequence, runs the debugger, partitions the captured stdout into spans by
correlation identifier, and matches expected checks against each span.

The collaborator modules (`script.rs`, `test_result.rs`,
`cargo_test_directory.rs`) are not part of the sources; the types they
export (`Statement`, `CorrelationId`, `EvaluationContext`, `Status`,
`TestDefinition`) are modelled from the spec where noted.  In particular a
`Script` is modelled directly as its *filtered leaf sequence*: the spec
describes `walk_applicable_leaves` as visiting, in document order, exactly
the leaves whose enclosing conditionals evaluate true, so the walk becomes
a plain fold over that list.

Rust `u32` values are modelled as `Nat`; the one place where the 32-bit
bound is observable (`str::parse::<u32>` in `extract_correlation_id`)
carries an explicit `2 ^ 32` bound.  Panicking operations (`unwrap`,
`assert!`, `todo!`, out-of-bounds indexing) are modelled by `Option`, with
`none` for the panic.
-/

namespace Dbt

/-- The four debugger kinds, from `enum DebuggerKind` in `debugger.rs`. -/
inductive DebuggerKind where
  | Gdb
  | Cdb
  | Lldb
  | Mock
deriving DecidableEq, Repr

/-- `DebuggerKind::name`. -/
def DebuggerKind.name : DebuggerKind → String
  | .Gdb => "gdb"
  | .Cdb => "cdb"
  | .Lldb => "lldb"
  | .Mock => "mock"

/-- Correlation identifiers, `CorrelationId(u32)` in `script.rs`.
Modelled from the spec: an opaque, totally ordered integer token. -/
abbrev CorrelationId := Nat

/-- Modelled from the spec: an ordered single-line check leaf carries a
check predicate over a line (an opaque capability) together with its
original source text, used for diagnostics. -/
structure Chk where
  check : String → Bool
  source : String

/-- Modelled from the spec: one leaf (or structural node) of the filtered
directive sequence, as matched by the `Statement` patterns in
`debugger.rs`.  Each executable or check leaf carries a slot for an
optional correlation identifier. -/
inductive Statement where
  | Exec (command : String) (cid : Option CorrelationId)
  | Check (chk : Chk) (cid : Option CorrelationId)
  | CheckUnorderedBlock (chks : List Chk) (cid : Option CorrelationId)
  | IfBlock
  | IgnoreTest

/-- Modelled from the spec: a test definition carries a name, the directive
sequence (here: its filtered leaf sequence) and breakpoint line indices. -/
structure Breakpoint where
  line_index : Nat
deriving DecidableEq, Repr

/-- Modelled from the spec: the parts of `TestDefinition` the engine
reads. -/
structure TestDefinition where
  name : String
  script : List Statement
  breakpoints : List Breakpoint

/-- The parts of `struct Debugger` the engine reads.  The evaluation
context only feeds conditional filtering, which is already folded into the
filtered leaf sequence (see the module comment). -/
structure Debugger where
  kind : DebuggerKind
  version : String
  command : String
  prelude : List String

/-- `Debugger::mock()`. -/
def Debugger.mock : Debugger :=
  { kind := .Mock, version := "1.0", command := "mockdbg", prelude := [] }

/-- `DebuggerExitStatus`. -/
inductive DebuggerExitStatus where
  | Success
  | Failure
deriving DecidableEq, Repr

/-- `DebuggerOutput`: captured stdout, stderr and exit indicator. -/
structure DebuggerOutput where
  stdout : String
  stderr : String
  exit_status : DebuggerExitStatus
deriving DecidableEq, Repr

/-- Modelled from the spec: the `Status` carried by a `TestResult`
(`test_result.rs` is not among the sources).  `Failed` carries the
diagnostic message and the attached captured output. -/
inductive Status where
  | Passed
  | Failed (message : String) (output : DebuggerOutput)
  | Errored
deriving DecidableEq, Repr

/-! ## Correlation-id assignment (`Debugger::assign_correlation_ids`) -/

/-- The mutable state of `assign_correlation_ids`: the set of identifiers
already consumed by a check, the next fresh identifier, the last emitted
identifier, plus a count of `warn!` records for dangling checks. -/
structure AssignState where
  checked : List CorrelationId
  next : Nat
  last : Option CorrelationId
  warnings : Nat
deriving Repr

/-- One step of the closure passed to `walk_applicable_leaves_mut` in
`assign_correlation_ids`.  `none` models the `assert!` panic that fires
when the same identifier is recorded as checked twice. -/
def assignStep (st : AssignState) : Statement → Option (Statement × AssignState)
  | .Exec cmd _ =>
      let lastChecked :=
        match st.last with
        | none => true
        | some id => st.checked.contains id
      if lastChecked then
        some (.Exec cmd (some st.next),
          { st with next := st.next + 1, last := some st.next })
      else
        match st.last with
        | some id => some (.Exec cmd (some id), { st with last := some id })
        | none => none
  | .Check chk c =>
      match st.last with
      | some id =>
          if st.checked.contains id then none
          else some (.Check chk (some id), { st with checked := id :: st.checked })
      | none =>
          some (.Check chk c, { st with warnings := st.warnings + 1 })
  | .CheckUnorderedBlock chks c =>
      match st.last with
      | some id =>
          if st.checked.contains id then none
          else some (.CheckUnorderedBlock chks (some id),
            { st with checked := id :: st.checked })
      | none =>
          some (.CheckUnorderedBlock chks c, { st with warnings := st.warnings + 1 })
  | .IfBlock => some (.IfBlock, st)
  | .IgnoreTest => some (.IgnoreTest, st)

/-- The walk of `assign_correlation_ids` over the filtered leaf sequence,
threading the state and rebuilding the statements with assigned slots. -/
def assignGo (st : AssignState) : List Statement → Option (List Statement × AssignState)
  | [] => some ([], st)
  | s :: rest => do
      let (s', st') ← assignStep st s
      let (rest', st'') ← assignGo st' rest
      pure (s' :: rest', st'')

/-- `Debugger::assign_correlation_ids`: the walk started from the empty
state (`correlation_ids_checked` empty, `next_correlation_id` 0, no
identifier emitted yet). -/
def assign_correlation_ids (script : List Statement) :
    Option (List Statement × AssignState) :=
  assignGo { checked := [], next := 0, last := none, warnings := 0 } script

/-! ## String primitives

Embeddings of the Rust `str` operations the engine uses, defined over
`List Char` so that their behaviour is fully explicit. -/

/-- Rust `str::starts_with`, on character lists: the first argument is the
pattern. -/
def listIsPrefix : List Char → List Char → Bool
  | [], _ => true
  | _ :: _, [] => false
  | a :: as, b :: bs => a = b && listIsPrefix as bs

/-- Rust `str::starts_with(pat)`. -/
def strStartsWith (s pat : String) : Bool :=
  listIsPrefix pat.data s.data

/-- Rust `str::contains(pat)` for string patterns, on character lists. -/
def listContainsSeg (needle : List Char) : List Char → Bool
  | [] => listIsPrefix needle []
  | c :: rest => listIsPrefix needle (c :: rest) || listContainsSeg needle rest

/-- Rust `str::contains(pat)`. -/
def strContains (s pat : String) : Bool :=
  listContainsSeg pat.data s.data

/-- The characters strictly after the last `=` of the line, or `none` when
the line has no `=` (in which case `line.rfind('=').unwrap()` in
`extract_correlation_id` panics). -/
def afterLastEq : List Char → Option (List Char)
  | [] => none
  | c :: rest =>
      match afterLastEq rest with
      | some s => some s
      | none => if c = '=' then some rest else none

/-- Rust `str::parse::<u32>`: an optional leading `+`, then one or more
decimal digits, value below `2 ^ 32`. -/
def parseU32 (cs : List Char) : Option Nat :=
  let ds : List Char :=
    match cs with
    | c :: rest => if c = '+' then rest else c :: rest
    | [] => []
  if ds = [] then none
  else if ds.all Char.isDigit then
    let n := ds.foldl (fun a c => a * 10 + (c.toNat - 48)) 0
    if n < 2 ^ 32 then some n else none
  else none

/-- Little-endian base-10 digits, with explicit fuel so the recursion is
structural (kernel-evaluable); `nat10Digits` supplies sufficient fuel. -/
def digitsAux : Nat → Nat → List Nat
  | _, 0 => []
  | n, fuel + 1 => if n = 0 then [] else n % 10 :: digitsAux (n / 10) fuel

/-- Little-endian base-10 digits of `n` (empty for 0). -/
def nat10Digits (n : Nat) : List Nat := digitsAux n n

/-- Decimal rendering of a `u32` (the `{}` formatting of
`correlation_id.0` and of line numbers). -/
def natReprU32 (n : Nat) : String :=
  if n = 0 then "0"
  else ⟨(nat10Digits n).reverse.map fun d => Char.ofNat (48 + d)⟩

/-- Rust `str::lines` splitting on `'\n'`: list of lines, no trailing
empty line for a trailing newline. -/
def splitNl : List Char → List (List Char)
  | [] => [[]]
  | c :: rest =>
      if c = '\n' then [] :: splitNl rest
      else
        match splitNl rest with
        | [] => [[c]]
        | l :: ls => (c :: l) :: ls

/-- Rust `str::lines` strips one trailing `'\r'` from each line. -/
def stripCr (l : List Char) : List Char :=
  if l.getLast? = some '\r' then l.dropLast else l

/-- Rust `str::lines`. -/
def rustLines (s : String) : List String :=
  let parts := splitNl s.data
  let parts := if parts.getLast? = some [] then parts.dropLast else parts
  parts.map fun l => ⟨stripCr l⟩

/-! ## Markers and script synthesis -/

/-- `CORRELATION_ID_BEGIN_MARKER`. -/
def CORRELATION_ID_BEGIN_MARKER : String := "__output_with_correlation_id_begin__="

/-- `CORRELATION_ID_END_MARKER`. -/
def CORRELATION_ID_END_MARKER : String := "__output_with_correlation_id_end__="

/-- `extract_correlation_id`: the characters after the last `=` parsed as
`u32`; `none` models the `unwrap` panics (no `=`, or unparsable id). -/
def extract_correlation_id (line : String) : Option CorrelationId := do
  let cs ← afterLastEq line.data
  parseU32 cs

/-- `Debugger::maybe_emit_correlation_id_command`: the text appended to the
script (empty when `correlation_id` is `None`).  Note that the `Lldb` arm
is implemented (`script print(..)`), unlike the other `Lldb` contracts. -/
def maybe_emit_correlation_id_command (kind : DebuggerKind) (isBegin : Bool)
    (correlation_id : Option CorrelationId) : String :=
  match correlation_id with
  | none => ""
  | some id =>
      let marker :=
        if isBegin then CORRELATION_ID_BEGIN_MARKER else CORRELATION_ID_END_MARKER
      match kind with
      | .Cdb => ".echo " ++ marker ++ natReprU32 id ++ "\n"
      | .Gdb => "python print('" ++ marker ++ natReprU32 id ++ "')\n"
      | .Mock => marker ++ natReprU32 id ++ "\n"
      | .Lldb => "script print('" ++ marker ++ natReprU32 id ++ "')\n"

/-- `Debugger::emit_script_prelude`: kind-specific first line, then the
configured prelude commands.  `none` models the `todo!()` for `Lldb`. -/
def emit_script_prelude (d : Debugger) : Option String :=
  match d.kind with
  | .Cdb => some (d.prelude.foldl (fun acc c => acc ++ c ++ "\n") ".lines -e\n")
  | .Gdb => some (d.prelude.foldl (fun acc c => acc ++ c ++ "\n") "")
  | .Lldb => none
  | .Mock => some (d.prelude.foldl (fun acc c => acc ++ c ++ "\n") "")

/-- `test_definition.name.rsplit_once('/')`, second component: the part of
the name after the last `/`, or `none` (an `unwrap` panic) when the name
contains no `/`. -/
def afterLastSlash : List Char → Option (List Char)
  | [] => none
  | c :: rest =>
      match afterLastSlash rest with
      | some s => some s
      | none => if c = '/' then some rest else none

/-- `Debugger::emit_breakpoints`: one breakpoint command per `#break`
directive.  `none` models the `todo!()` hit for `Lldb` (reached only when
the loop body runs, i.e. at least one breakpoint exists) and the `unwrap`
panic when the test name has no `/`. -/
def emit_breakpoints (d : Debugger) (td : TestDefinition) : Option String :=
  td.breakpoints.foldlM
    (fun acc bp =>
      match d.kind with
      | .Cdb | .Mock => do
          let base ← afterLastSlash td.name.data
          pure (acc ++ "bp `" ++ (⟨base⟩ : String) ++ ":" ++
            natReprU32 (bp.line_index + 1) ++ "`\n")
      | .Gdb => do
          let base ← afterLastSlash td.name.data
          pure (acc ++ "break '" ++ (⟨base⟩ : String) ++ ":" ++
            natReprU32 (bp.line_index + 1) ++ "'\n")
      | .Lldb => none)
    ""

/-- The command-emission walk of `generate_debugger_script`: for each
executable leaf, close/open the span when its identifier differs from the
one last emitted, then write the command verbatim.  Returns the emitted
text and the final `last_correlation_id`. -/
def emitCommands (kind : DebuggerKind) :
    List Statement → Option CorrelationId → String × Option CorrelationId
  | [], last => ("", last)
  | .Exec command cid :: rest, last =>
      let pre :=
        if last ≠ cid then
          maybe_emit_correlation_id_command kind false last ++
          maybe_emit_correlation_id_command kind true cid
        else ""
      let last' := if last ≠ cid then cid else last
      let (s, l) := emitCommands kind rest last'
      (pre ++ command ++ "\n" ++ s, l)
  | _ :: rest, last => emitCommands kind rest last

/-- `generate_debugger_script`: prelude, breakpoints, then the command
stream with span markers, closing any still-open span at the end.  `none`
models the panics of the emission helpers and of id assignment. -/
def generate_debugger_script (debugger : Debugger) (td : TestDefinition) :
    Option String :=
  match emit_script_prelude debugger with
  | none => none
  | some prelude =>
      match emit_breakpoints debugger td with
      | none => none
      | some bps =>
          match assign_correlation_ids td.script with
          | none => none
          | some (script, _) =>
              let (body, last) := emitCommands debugger.kind script none
              some (prelude ++ bps ++ body ++
                maybe_emit_correlation_id_command debugger.kind false last)

/-! ## Process invocation (`DebuggerKind::run`) -/

/-- Embedding of `DebuggerKind::run` up to the OS process boundary: the
mock kind returns early with the echoed script, the implemented kinds
spawn the executable with the listed arguments (script path and debuggee
appended), and `Lldb` hits `todo!()` before anything is spawned. -/
inductive RunAction where
  | mockEcho
  | spawn (args : List String)
  | unimplemented
deriving DecidableEq, Repr

/-- The dispatch of `DebuggerKind::run`. -/
def DebuggerKind.runAction (kind : DebuggerKind)
    (script_file_path debuggee : String) : RunAction :=
  match kind with
  | .Mock => .mockEcho
  | .Gdb => .spawn ["--batch", "--quiet", "--command", script_file_path, debuggee]
  | .Cdb => .spawn ["-cf", script_file_path, debuggee]
  | .Lldb => .unimplemented

/-- `create_mock_debugger_output`: the synthesized script file is read
back verbatim as stdout, with empty stderr and forced success. -/
def create_mock_debugger_output (scriptContent : String) : DebuggerOutput :=
  { stdout := scriptContent, stderr := "", exit_status := .Success }

/-! ## Output partitioning (`debugger_output_by_correlation_id`) -/

/-- `BTreeMap::insert` on an association list sorted by key: replaces an
existing binding, otherwise inserts at the sorted position. -/
def btreeInsert (m : List (CorrelationId × List String)) (k : CorrelationId)
    (v : List String) : List (CorrelationId × List String) :=
  match m with
  | [] => [(k, v)]
  | (k', v') :: rest =>
      if k < k' then (k, v) :: (k', v') :: rest
      else if k = k' then (k, v) :: rest
      else (k', v') :: btreeInsert rest k v

/-- `BTreeMap::get`. -/
def btreeGet (m : List (CorrelationId × List String)) (k : CorrelationId) :
    Option (List String) :=
  match m with
  | [] => none
  | (k', v') :: rest => if k = k' then some v' else btreeGet rest k

/-- The result of `debugger_output_by_correlation_id`: the partition, the
`Err(.. Status::Errored ..)` early return for malformed output, or a panic
(`assert!(current_lines.is_empty())`, or the `unwrap`s inside
`extract_correlation_id`). -/
inductive PartitionResult where
  | ok (m : List (CorrelationId × List String))
  | errored
  | panics
deriving DecidableEq, Repr

/-- The line loop of `debugger_output_by_correlation_id`, with state: the
currently open span's identifier, its accumulated lines, and the result
map.  A begin marker while a span is open, or an end marker with no open
span, is malformed output; an open span at end of input is silently
dropped. -/
def partitionGo : List String → Option CorrelationId → List String →
    List (CorrelationId × List String) → PartitionResult
  | [], _, _, acc => .ok acc
  | line :: rest, curId, curLines, acc =>
      if strStartsWith line CORRELATION_ID_BEGIN_MARKER then
        match curId with
        | some _ => .errored
        | none =>
            if curLines = [] then
              match extract_correlation_id line with
              | some id => partitionGo rest (some id) curLines acc
              | none => .panics
            else .panics
      else if strStartsWith line CORRELATION_ID_END_MARKER then
        match curId with
        | some id => partitionGo rest none [] (btreeInsert acc id curLines)
        | none => .errored
      else
        match curId with
        | some _ => partitionGo rest curId (curLines ++ [line]) acc
        | none => partitionGo rest curId curLines acc

/-- `debugger_output_by_correlation_id`: partition the stdout lines. -/
def debugger_output_by_correlation_id (debugger_output : DebuggerOutput) :
    PartitionResult :=
  partitionGo (rustLines debugger_output.stdout) none [] []

/-! ## Matching (`process_debugger_output`) -/

/-- `BTreeMap` of check statements grouped by identifier: the map entry
for the key is created on demand and the statement appended
(`entry(..).or_default().push(..)`). -/
def btreePush (m : List (CorrelationId × List Statement)) (k : CorrelationId)
    (v : Statement) : List (CorrelationId × List Statement) :=
  match m with
  | [] => [(k, [v])]
  | (k', vs) :: rest =>
      if k < k' then (k, [v]) :: (k', vs) :: rest
      else if k = k' then (k, vs ++ [v]) :: rest
      else (k', vs) :: btreePush rest k v

/-- The collection walk of `process_debugger_output`: gather every check
statement by its correlation identifier.  `none` models the
`cid.unwrap()` panic on a check whose identifier slot was left unset. -/
def collectChecks : List Statement → List (CorrelationId × List Statement) →
    Option (List (CorrelationId × List Statement))
  | [], acc => some acc
  | s :: rest, acc =>
      match s with
      | .Check _ cid | .CheckUnorderedBlock _ cid =>
          match cid with
          | some id => collectChecks rest (btreePush acc id s)
          | none => none
      | _ => collectChecks rest acc

/-- The matching loop of `process_debugger_output` for one span: walk the
output lines, advancing `check_index` whenever the current check's
predicate accepts the line, breaking once all checks matched.  Returns the
final `check_index`; `none` models the `todo!()` on an unordered block and
the out-of-bounds indexing panic on an empty check list. -/
def runChecks (checks : List Statement) (idx : Nat) : List String → Option Nat
  | [] => some idx
  | line :: rest =>
      if h : idx < checks.length then
        match checks.get ⟨idx, h⟩ with
        | .Check chk _ =>
            if chk.check line then
              if idx + 1 = checks.length then some (idx + 1)
              else runChecks checks (idx + 1) rest
            else runChecks checks idx rest
        | .CheckUnorderedBlock .. => none
        | _ => runChecks checks idx rest
      else none

/-- The failure diagnostic built when a check went unmatched: the expected
source text and every captured line of the span that is not itself a
marker line. -/
def failMessage (expected : String) (output : List String) : String :=
  (output.filter fun x =>
      !(strContains x CORRELATION_ID_BEGIN_MARKER) &&
      !(strContains x CORRELATION_ID_END_MARKER)).foldl
    (fun acc line => acc ++ "> " ++ line ++ "\n")
    ("Could not find '" ++ expected ++ "' in debugger output. Expected " ++
      "to find it within the following lines:\n\n")

/-- The diagnostic of the `Failed` verdict produced when a span's output
is missing entirely; the Rust code formats the first check with its
`Debug` instance, abbreviated here to the check's source text. -/
def missingOutputMessage (checks : List Statement) : String :=
  match checks.head? with
  | some (.Check chk _) => "check " ++ chk.source ++ " failed"
  | _ => "check failed"

/-- The per-identifier verdict loop of `process_debugger_output`: fetch
the span's lines (missing means `Failed` naming the first check), run the
matching loop, and on an unmatched check build the failure diagnostic from
the check at the final index. -/
def processGroups (debugger_output : DebuggerOutput) :
    List (CorrelationId × List Statement) →
    List (CorrelationId × List String) → Option Status
  | [], _ => some .Passed
  | (cid, checks) :: rest, parts =>
      match btreeGet parts cid with
      | none => some (.Failed (missingOutputMessage checks) debugger_output)
      | some output => do
          let finalIdx ← runChecks checks 0 output
          if finalIdx = checks.length then
            processGroups debugger_output rest parts
          else
            match checks.get? finalIdx with
            | some (.Check chk _) =>
                some (.Failed (failMessage chk.source output) debugger_output)
            | some (.CheckUnorderedBlock ..) => none
            | _ => none

/-- `process_debugger_output`: assign correlation identifiers on a fresh
clone, collect the checks by identifier, partition the captured stdout,
and replay every span's checks.  `none` models the panics noted on the
helpers. -/
def process_debugger_output (debugger : Debugger) (td : TestDefinition)
    (debugger_output : DebuggerOutput) : Option Status :=
  match assign_correlation_ids td.script with
  | none => none
  | some (script, _) =>
      match collectChecks script [] with
      | none => none
      | some groups =>
          match debugger_output_by_correlation_id debugger_output with
          | .panics => none
          | .errored => some .Errored
          | .ok parts => processGroups debugger_output groups parts

/-! ## Version-string extraction (`extract_gdb_version`, `extract_cdb_version`)

The two extractors are regular-expression searches; the patterns use only
literals, `\s+`, `.+`, `[\d\.]+`, `\(..\)` and one capture group, so they
are embedded as a sequence of items matched by a small backtracking
engine with greedy one-or-more semantics and leftmost search, which is how
the `regex` crate matches these patterns. -/

/-- One item of a linearized regular expression: a literal character, a
greedy one-or-more character class, or the (single) capturing greedy
one-or-more class. -/
inductive RegexItem where
  | lit (c : Char)
  | plusCls (p : Char → Bool)
  | capPlus (p : Char → Bool)

/-- The candidate consumption lengths for a greedy one-or-more item whose
maximal run has length `n`: `n, n - 1, .., 1`, longest first. -/
def greedyLens (n : Nat) : List Nat :=
  (List.range n).map fun j => n - j

/-- Match the items against a prefix of the character list (the rest of
the input is unconstrained); returns the text of the capture group on
success.  A one-or-more item consumes greedily with backtracking: the
longest candidate whose continuation matches wins.  The fuel argument
makes the recursion structural; one unit is consumed per item, so
`items.length + 1` fuel always suffices. -/
def matchSeqF : Nat → List RegexItem → List Char → Option (List Char)
  | 0, _, _ => none
  | _ + 1, [], _ => some []
  | fuel + 1, .lit c :: items, s =>
      match s with
      | [] => none
      | d :: s' => if d = c then matchSeqF fuel items s' else none
  | fuel + 1, .plusCls p :: items, s =>
      (greedyLens ((s.takeWhile p).length)).foldl
        (fun acc k =>
          match acc with
          | some r => some r
          | none => matchSeqF fuel items (s.drop k))
        none
  | fuel + 1, .capPlus p :: items, s =>
      (greedyLens ((s.takeWhile p).length)).foldl
        (fun acc k =>
          match acc with
          | some r => some r
          | none =>
              match matchSeqF fuel items (s.drop k) with
              | some _ => some (s.take k)
              | none => none)
        none

/-- Unanchored leftmost search: try every start position left to right. -/
def searchCaptures (items : List RegexItem) : List Char → Option (List Char)
  | [] => matchSeqF (items.length + 1) items []
  | c :: rest =>
      match matchSeqF (items.length + 1) items (c :: rest) with
      | some cap => some cap
      | none => searchCaptures items rest

/-- `\s`. -/
def isWs (c : Char) : Bool := c.isWhitespace

/-- `.` (any character but newline). -/
def isDot (c : Char) : Bool := c ≠ '\n'

/-- `[\d\.]`. -/
def isDigitOrDot (c : Char) : Bool := c.isDigit || c = '.'

/-- Helper: the literal items of a string. -/
def litItems (s : String) : List RegexItem := s.data.map RegexItem.lit

/-- The pattern `GNU\s+gdb\s+\(.+\)\s+(.+)` of `GDB_REGEX`. -/
def GDB_REGEX : List RegexItem :=
  litItems "GNU" ++ [.plusCls isWs] ++ litItems "gdb" ++ [.plusCls isWs] ++
  [.lit '('] ++ [.plusCls isDot] ++ [.lit ')'] ++ [.plusCls isWs] ++
  [.capPlus isDot]

/-- The pattern `cdb\s+version\s+([\d\.]+)` of `CDB_REGEX`. -/
def CDB_REGEX : List RegexItem :=
  litItems "cdb" ++ [.plusCls isWs] ++ litItems "version" ++ [.plusCls isWs] ++
  [.capPlus isDigitOrDot]

/-- `extract_gdb_version`: first capture of `GDB_REGEX` anywhere in the
line. -/
def extract_gdb_version (version_output : String) : Option String :=
  (searchCaptures GDB_REGEX version_output.data).map fun cs => ⟨cs⟩

/-- `extract_cdb_version`: first capture of `CDB_REGEX` anywhere in the
line. -/
def extract_cdb_version (version_output : String) : Option String :=
  (searchCaptures CDB_REGEX version_output.data).map fun cs => ⟨cs⟩

/-! ## Derived notions used by the statements -/

/-- The observable core of a verdict: its status constructor and
diagnostic message, without the attached captured output. -/
inductive StatusCore where
  | passed
  | failed (message : String)
  | errored
deriving DecidableEq, Repr

/-- Project a `Status` to its core. -/
def Status.core : Status → StatusCore
  | .Passed => .passed
  | .Failed m _ => .failed m
  | .Errored => .errored

/-- A check whose predicate is a literal substring test, as produced by
`#check` directives (`parse_script` is external; the engine treats the
predicate as opaque). -/
def chkOf (pat : String) : Chk :=
  { check := fun l => strContains l pat, source := pat }

/-- A check matching exactly one literal line. -/
def chkLine (l₀ : String) : Chk :=
  { check := fun l => l = l₀, source := l₀ }

/-- An empty captured output. -/
def emptyOutput : DebuggerOutput :=
  { stdout := "", stderr := "", exit_status := .Success }

/-- The directive sequence of the `generate_debugger_script` unit test:
`print abc`, `#check __abc__`, `print xyz`, `#check __xyz__`, filtered
under a condition true for the mock backend. -/
def tdRoundtrip : TestDefinition :=
  { name := "main", breakpoints := [],
    script := [.Exec "print abc" none, .Check (chkOf "__abc__") none,
               .Exec "print xyz" none, .Check (chkOf "__xyz__") none] }

/-- A test whose filtered leaf sequence starts with a dangling check (no
preceding executable command), followed by a command and a matching
check. -/
def tdDangling : TestDefinition :=
  { name := "main", breakpoints := [],
    script := [.Check (chkOf "__nope__") none, .Exec "print abc" none,
               .Check (chkOf "abc") none] }

/-- A test with no checks at all. -/
def tdNoChecks : TestDefinition :=
  { name := "main", breakpoints := [], script := [] }

/-- A captured stdout whose single span has a begin marker but no end
marker before end of input. -/
def unterminatedOutput : DebuggerOutput :=
  { stdout := "__output_with_correlation_id_begin__=0\n", stderr := "",
    exit_status := .Success }

/-- Expected checks `[P1, P2]` for one span, as collected by
`process_debugger_output`. -/
def groupsP1P2 : List (CorrelationId × List Statement) :=
  [(0, [.Check (chkLine "P1-match") (some 0), .Check (chkLine "P2-match") (some 0)])]

/-- A filtered leaf sequence of executable commands each immediately
followed by exactly one check before the next command. -/
def commandCheckBlocks (blocks : List (String × Chk)) : List Statement :=
  blocks.flatMap fun b => [.Exec b.1 none, .Check b.2 none]

/-- The same sequence after identifier assignment starting at `n`: the
`k`-th command and its check both carry identifier `n + k`. -/
def assignedBlocks (n : Nat) (blocks : List (String × Chk)) : List Statement :=
  (List.enumFrom n blocks).flatMap fun p =>
    [.Exec p.2.1 (some p.1), .Check p.2.2 (some p.1)]

/-- The invariant of the assignment state: every checked identifier and
the last emitted identifier are below the counter. -/
def AssignInv (st : AssignState) : Prop :=
  (∀ c ∈ st.checked, c < st.next) ∧ ∀ l, st.last = some l → l < st.next

/-- Overwrite an executable leaf's identifier slot; leave other leaves
unchanged. -/
def execWithId (i : CorrelationId) : Statement → Statement
  | .Exec c _ => .Exec c (some i)
  | s => s

/-- The identifiers carried by the executable leaves of a sequence, in
order (leaves with an unset slot are skipped). -/
def execIds : List Statement → List CorrelationId
  | [] => []
  | .Exec _ (some i) :: rest => i :: execIds rest
  | _ :: rest => execIds rest

/-! ## Round-trip specification helpers (claim C7) -/

/-- The begin-marker line for identifier `i`, as the mock backend emits
it. -/
def beginLine (i : CorrelationId) : String :=
  CORRELATION_ID_BEGIN_MARKER ++ natReprU32 i

/-- The end-marker line for identifier `i`. -/
def endLine (i : CorrelationId) : String :=
  CORRELATION_ID_END_MARKER ++ natReprU32 i

/-- The (identifier, command) pairs of the executable leaves carrying an
identifier, in order. -/
def execPairs : List Statement → List (CorrelationId × String)
  | [] => []
  | .Exec c (some i) :: rest => (i, c) :: execPairs rest
  | _ :: rest => execPairs rest

/-- Group a run of pairs while inside the span of identifier `i` whose
lines so far are `acc`. -/
def groupCont (i : CorrelationId) (acc : List String) :
    List (CorrelationId × String) → List (CorrelationId × List String)
  | [] => [(i, acc)]
  | (j, c) :: rest =>
      if j = i then groupCont i (acc ++ [c]) rest
      else (i, acc) :: groupCont j [c] rest

/-- Group consecutive pairs with equal identifiers into spans: the
per-identifier command lists that synthesis emits. -/
def groupSpans : List (CorrelationId × String) → List (CorrelationId × List String)
  | [] => []
  | (i, c) :: rest => groupCont i [c] rest

/-- The lines emitted after the opening of span `i`: commands of the span,
the end marker, and the remaining spans. -/
def spanLinesCont (i : CorrelationId) : List (CorrelationId × String) → List String
  | [] => [endLine i]
  | (j, c) :: rest =>
      if j = i then c :: spanLinesCont i rest
      else endLine i :: beginLine j :: c :: spanLinesCont j rest

/-- The span-marker/command lines of the whole command stream. -/
def spanLinesAll : List (CorrelationId × String) → List String
  | [] => []
  | (i, c) :: rest => beginLine i :: c :: spanLinesCont i rest

/-- Join lines with a terminating newline each (the shape `writeln!`
produces). -/
def joinLines (ls : List String) : String :=
  ls.foldr (fun l acc => l ++ "\n" ++ acc) ""

/-- A single physical line: free of newline and carriage return. -/
def noNlCr (s : String) : Prop :=
  ∀ ch ∈ s.data, ch ≠ '\n' ∧ ch ≠ '\r'

instance decNoNlCr (s : String) : Decidable (noNlCr s) :=
  inferInstanceAs (Decidable (∀ ch ∈ s.data, ch ≠ '\n' ∧ ch ≠ '\r'))

/-- A command that survives the textual round trip: one physical line
that does not begin with either correlation marker. -/
def safeCommand (c : String) : Prop :=
  noNlCr c ∧ strStartsWith c CORRELATION_ID_BEGIN_MARKER = false ∧
  strStartsWith c CORRELATION_ID_END_MARKER = false

/-- The breakpoint line emitted for the mock backend. -/
def bpLine (base : List Char) (bp : Breakpoint) : String :=
  "bp `" ++ (⟨base⟩ : String) ++ ":" ++ natReprU32 (bp.line_index + 1) ++ "`"

/-- The breakpoint lines of a test definition for the mock backend. -/
def bpLines (base : List Char) (bps : List Breakpoint) : List String :=
  bps.map (bpLine base)

/-- A test whose single command is itself a begin-marker line — the
command text collides with the wire format. -/
def tdMarkerCmd : TestDefinition :=
  { name := "main", breakpoints := [],
    script := [.Exec "__output_with_correlation_id_begin__=0" none] }

/-! ## Claim theorems -/

/-- Claim C1: the spec says a dangling check (no preceding executable
command) yields a Passed verdict with a warning record.  The assignment
pass does record the warning and leaves the identifier slot unset, but
`process_debugger_output` then panics on `cid.unwrap()` while collecting
checks, so the pipeline crashes instead of producing any verdict: the
code contradicts the tolerance its own warning path establishes. -/
theorem dbt_c1_dangling_check_crashes :
    (assign_correlation_ids tdDangling.script).map
        (fun p => ((p.1.head?.map fun s =>
            match s with
            | .Check _ c => c
            | _ => some 0), p.2.warnings)) = some (some none, 1) ∧
    generate_debugger_script Debugger.mock tdDangling =
      some ("__output_with_correlation_id_begin__=0\nprint abc\n" ++
        "__output_with_correlation_id_end__=0\n") ∧
    process_debugger_output Debugger.mock tdDangling
      (create_mock_debugger_output
        ("__output_with_correlation_id_begin__=0\nprint abc\n" ++
          "__output_with_correlation_id_end__=0\n")) = none := by
  refine ⟨rfl, rfl, rfl⟩

/-- Claim C2, counterexample: a captured stdout consisting of a single
begin-marker line (a span with a missing end marker) does not yield the
Errored verdict — the open span is silently dropped and a test with no
checks is Passed. -/
theorem dbt_c2_missing_end_not_errored :
    process_debugger_output Debugger.mock tdNoChecks unterminatedOutput =
      some .Passed := by
  rfl

/-- Claim C2, amended: a second begin-marker line while a span is open, or
an end-marker line with no open span, makes output partitioning abort with
the Errored verdict; but a span whose end marker is missing at end of
input is silently discarded — partitioning returns only the spans closed
so far, and the verdict is decided by the remaining checks. -/
theorem dbt_c2_amended :
    (∀ line rest i curLines acc,
        strStartsWith line CORRELATION_ID_BEGIN_MARKER = true →
        partitionGo (line :: rest) (some i) curLines acc = .errored) ∧
    (∀ line rest curLines acc,
        strStartsWith line CORRELATION_ID_BEGIN_MARKER = false →
        strStartsWith line CORRELATION_ID_END_MARKER = true →
        partitionGo (line :: rest) none curLines acc = .errored) ∧
    (∀ curId curLines acc, partitionGo [] curId curLines acc = .ok acc) := by
  refine ⟨fun line rest i curLines acc h => ?_,
    fun line rest curLines acc h1 h2 => ?_, fun _ _ _ => rfl⟩
  · simp [partitionGo, h]
  · simp [partitionGo, h1, h2]

/-- Witness for `dbt_c2_amended` at concrete inputs. -/
theorem dbt_c2_amended_witness :
    partitionGo ["__output_with_correlation_id_begin__=1"] (some 0) [] [] =
      .errored ∧
    partitionGo ["__output_with_correlation_id_end__=0"] none [] [] =
      .errored ∧
    partitionGo [] (some 7) ["x"] [(3, ["y"])] = .ok [(3, ["y"])] :=
  ⟨dbt_c2_amended.1 _ [] 0 [] [] (by decide),
   dbt_c2_amended.2.1 _ [] [] [] (by decide) (by decide),
   dbt_c2_amended.2.2 (some 7) ["x"] [(3, ["y"])]⟩

/-- Claim C3, counterexample: the LLDB correlation-marker emission is
implemented — invoking it emits a `script print(..)` line rather than
aborting, so not every LLDB command-emission contract is unimplemented. -/
theorem dbt_c3_lldb_marker_is_implemented :
    maybe_emit_correlation_id_command .Lldb true (some 0) =
      "script print('__output_with_correlation_id_begin__=0')\n" := by
  rfl

/-- Claim C3, amended: for the LLDB backend the script-prelude emission,
the breakpoint emission (as soon as there is a breakpoint to emit) and the
process invocation all abort with an explicit unimplemented panic, while
the correlation-marker emission is implemented and emits a
`script print(..)` command wrapping the marker. -/
theorem dbt_c3_amended :
    (∀ d : Debugger, d.kind = .Lldb → emit_script_prelude d = none) ∧
    (∀ (d : Debugger) (td : TestDefinition), d.kind = .Lldb →
        td.breakpoints ≠ [] → emit_breakpoints d td = none) ∧
    (∀ s dbg, DebuggerKind.runAction .Lldb s dbg = .unimplemented) ∧
    (∀ b id, maybe_emit_correlation_id_command .Lldb b (some id) =
        "script print('" ++
          (if b then CORRELATION_ID_BEGIN_MARKER else CORRELATION_ID_END_MARKER) ++
          natReprU32 id ++ "')\n") := by
  refine ⟨fun d h => ?_, fun d td h hbp => ?_, fun _ _ => rfl, fun b id => rfl⟩
  · simp [emit_script_prelude, h]
  · match htd : td.breakpoints with
    | [] => exact absurd htd hbp
    | bp :: rest => simp [emit_breakpoints, htd, h, List.foldlM]

/-- Witness for `dbt_c3_amended` at concrete inputs. -/
theorem dbt_c3_amended_witness :
    emit_script_prelude { Debugger.mock with kind := .Lldb } = none ∧
    emit_breakpoints { Debugger.mock with kind := .Lldb }
      { name := "a/b", breakpoints := [⟨3⟩], script := [] } = none ∧
    DebuggerKind.runAction .Lldb "script.txt" "debuggee" = .unimplemented ∧
    maybe_emit_correlation_id_command .Lldb false (some 2) =
      "script print('" ++
        (if false then CORRELATION_ID_BEGIN_MARKER else CORRELATION_ID_END_MARKER) ++
        natReprU32 2 ++ "')\n" :=
  ⟨dbt_c3_amended.1 _ rfl, dbt_c3_amended.2.1 _ _ rfl (by decide),
   dbt_c3_amended.2.2.1 _ _, dbt_c3_amended.2.2.2 false 2⟩

/-- Claim C4: ordered-check matching is a subsequence test over one
span's output lines: with expected checks `[P1, P2]`, the output lines
`[noise, P1-match, noise, P2-match]` give the Passed verdict (non-matching
lines between expected lines are skipped), while `[P2-match, P1-match]`
(wrong order, no later P1 occurrence) gives a Failed verdict. -/
theorem dbt_c4_subsequence_matching :
    processGroups emptyOutput groupsP1P2
        [(0, ["noise", "P1-match", "noise", "P2-match"])] = some .Passed ∧
    ∃ msg, processGroups emptyOutput groupsP1P2
        [(0, ["P2-match", "P1-match"])] = some (.Failed msg emptyOutput) :=
  ⟨rfl, ⟨_, rfl⟩⟩

set_option maxRecDepth 4000 in
/-- Claim C8: for the null backend, the directive sequence `print abc`,
`check __abc__`, `print xyz`, `check __xyz__` synthesizes to exactly the
six lines begin-marker(0), `print abc`, end-marker(0), begin-marker(1),
`print xyz`, end-marker(1), each marker being the fixed literal prefix
immediately followed by the decimal identifier, with no trailing span
left open. -/
theorem dbt_c8_mock_synthesis :
    generate_debugger_script Debugger.mock tdRoundtrip =
      some ("__output_with_correlation_id_begin__=0\n" ++ "print abc\n" ++
        "__output_with_correlation_id_end__=0\n" ++
        "__output_with_correlation_id_begin__=1\n" ++ "print xyz\n" ++
        "__output_with_correlation_id_end__=1\n") := by
  decide

/-- Claim C9: the GDB extractor applied to `GNU gdb (GDB) 8.2.1` returns
version `8.2.1` while the CDB extractor returns no match on that line; the
CDB extractor applied to `cdb version 10.0.21349.1004` returns version
`10.0.21349.1004` while the GDB extractor returns no match on that
line. -/
theorem dbt_c9_version_extraction :
    extract_gdb_version "GNU gdb (GDB) 8.2.1" = some "8.2.1" ∧
    extract_cdb_version "GNU gdb (GDB) 8.2.1" = none ∧
    extract_cdb_version "cdb version 10.0.21349.1004" =
      some "10.0.21349.1004" ∧
    extract_gdb_version "cdb version 10.0.21349.1004" = none := by
  refine ⟨?_, ?_, ?_, ?_⟩ <;> rfl

/-! ### Lemmas about identifier assignment -/

theorem contains_true_iff {l : List Nat} {a : Nat} :
    l.contains a = true ↔ a ∈ l := by
  simp [List.contains, List.elem_iff]

theorem contains_false_of_not_mem {l : List Nat} {a : Nat} (h : a ∉ l) :
    l.contains a = false := by
  cases hc : l.contains a with
  | false => rfl
  | true => exact absurd (contains_true_iff.mp hc) h

/-- Unfolding of the assignment walk on a cons cell. -/
theorem assignGo_cons (st : AssignState) (s : Statement) (rest : List Statement) :
    assignGo st (s :: rest) =
      (assignStep st s).bind fun p =>
        (assignGo p.2 rest).map fun q => (p.1 :: q.1, q.2) := by
  cases hs : assignStep st s with
  | none => simp [assignGo, hs]
  | some p =>
      obtain ⟨s', st'⟩ := p
      cases hr : assignGo st' rest with
      | none => simp [assignGo, hs, hr]
      | some q => obtain ⟨a, b⟩ := q; simp [assignGo, hs, hr]

/-- The assignment walk over command-check blocks from any state whose
last emitted identifier (if any) has been checked: the `k`-th block gets
identifier `st.next + k`. -/
theorem assignGo_blocks (blocks : List (String × Chk)) (st : AssignState)
    (hc : ∀ c ∈ st.checked, c < st.next)
    (hl : ∀ l, st.last = some l → l ∈ st.checked) :
    ∃ st', assignGo st (commandCheckBlocks blocks) =
      some (assignedBlocks st.next blocks, st') := by
  induction blocks generalizing st with
  | nil => exact ⟨st, rfl⟩
  | cons b rest ih =>
      obtain ⟨c, k⟩ := b
      obtain ⟨ch, n, la, w⟩ := st
      simp only at hc hl
      have hstep1 : assignStep ⟨ch, n, la, w⟩ (.Exec c none) =
          some (.Exec c (some n), ⟨ch, n + 1, some n, w⟩) := by
        cases hlast : la with
        | none => simp [assignStep, hlast]
        | some l => simp [assignStep, hlast, hl l hlast]
      have hnotmem : n ∉ ch := fun hmem => absurd (hc _ hmem) (lt_irrefl _)
      have hstep2 : assignStep ⟨ch, n + 1, some n, w⟩ (.Check k none) =
          some (.Check k (some n), ⟨n :: ch, n + 1, some n, w⟩) := by
        simp [assignStep, hnotmem]
      obtain ⟨st', hrest⟩ := ih ⟨n :: ch, n + 1, some n, w⟩
        (by
          intro c' hc'
          rcases List.mem_cons.mp hc' with h | h
          · subst h; exact Nat.lt_succ_self _
          · exact Nat.lt_succ_of_lt (hc _ h))
        (by
          intro l hl'
          cases hl'
          exact List.mem_cons_self _ _)
      refine ⟨st', ?_⟩
      have hleaves : commandCheckBlocks ((c, k) :: rest) =
          Statement.Exec c none :: Statement.Check k none ::
            commandCheckBlocks rest := by
        simp [commandCheckBlocks]
      rw [hleaves, assignGo_cons, hstep1]
      simp only [Option.bind, assignGo_cons, hstep2, hrest]
      simp [assignedBlocks, List.enumFrom, commandCheckBlocks]

/-- The identifiers of the command-check blocks assigned from `n` are
`n, n + 1, ..`. -/
theorem execIds_assignedBlocks (blocks : List (String × Chk)) (n : Nat) :
    execIds (assignedBlocks n blocks) = List.range' n blocks.length := by
  induction blocks generalizing n with
  | nil => rfl
  | cons b rest ih =>
      simp only [assignedBlocks, List.enumFrom, List.flatMap_cons,
        List.cons_append, List.nil_append, execIds, List.length_cons,
        List.range'] at *
      exact congrArg (n :: ·) (ih (n + 1))

/-- Claim C5: for a filtered leaf sequence of N executable commands each
immediately followed by exactly one check before the next command, the
assignment pass succeeds and assigns identifier `k` to the `k`-th command
(and its check): N distinct, strictly increasing identifiers, one per
command, with the counter starting at 0. -/
theorem dbt_c5_one_id_per_command_block (blocks : List (String × Chk)) :
    (∃ st, assign_correlation_ids (commandCheckBlocks blocks) =
      some (assignedBlocks 0 blocks, st)) ∧
    execIds (assignedBlocks 0 blocks) = List.range blocks.length := by
  constructor
  · exact assignGo_blocks blocks
      { checked := [], next := 0, last := none, warnings := 0 }
      (by intro c hc; cases hc) (by intro l hl; cases hl)
  · rw [execIds_assignedBlocks, List.range_eq_range']

/-- Each assignment step preserves the state invariant and never
decreases the counter. -/
theorem assignStep_inv {st : AssignState} {s s' : Statement}
    {st' : AssignState} (h : assignStep st s = some (s', st'))
    (hinv : AssignInv st) : AssignInv st' ∧ st.next ≤ st'.next := by
  obtain ⟨ch, n, la, w⟩ := st
  obtain ⟨hc, hl⟩ := hinv
  cases s with
  | Exec c x =>
      cases hla : la with
      | none =>
          simp [assignStep, hla] at h
          obtain ⟨-, h2⟩ := h
          subst h2
          exact ⟨⟨fun c' hc' => Nat.lt_succ_of_lt (hc c' hc'),
            fun l hl' => by cases hl'; exact Nat.lt_succ_self _⟩, Nat.le_succ _⟩
      | some i =>
          by_cases hmem : i ∈ ch
          · simp [assignStep, hla, hmem] at h
            obtain ⟨-, h2⟩ := h
            subst h2
            exact ⟨⟨fun c' hc' => Nat.lt_succ_of_lt (hc c' hc'),
              fun l hl' => by cases hl'; exact Nat.lt_succ_self _⟩, Nat.le_succ _⟩
          · simp [assignStep, hla, hmem] at h
            obtain ⟨-, h2⟩ := h
            subst h2
            exact ⟨⟨hc, fun l hl' => by
              cases hl'; exact hl i (by simp [hla])⟩, le_refl _⟩
  | Check chk x =>
      cases hla : la with
      | none =>
          simp [assignStep, hla] at h
          obtain ⟨-, h2⟩ := h
          subst h2
          exact ⟨⟨hc, fun l hl' => by cases hl'⟩, le_refl _⟩
      | some i =>
          by_cases hmem : i ∈ ch
          · simp [assignStep, hla, hmem] at h
          · simp [assignStep, hla, hmem] at h
            obtain ⟨-, h2⟩ := h
            subst h2
            refine ⟨⟨fun c' hc' => ?_, fun l hl' => by
              cases hl'; exact hl i (by simp [hla])⟩, le_refl _⟩
            rcases List.mem_cons.mp hc' with h | h
            · rw [h]; exact hl i (by simp [hla])
            · exact hc _ h
  | CheckUnorderedBlock chks x =>
      cases hla : la with
      | none =>
          simp [assignStep, hla] at h
          obtain ⟨-, h2⟩ := h
          subst h2
          exact ⟨⟨hc, fun l hl' => by cases hl'⟩, le_refl _⟩
      | some i =>
          by_cases hmem : i ∈ ch
          · simp [assignStep, hla, hmem] at h
          · simp [assignStep, hla, hmem] at h
            obtain ⟨-, h2⟩ := h
            subst h2
            refine ⟨⟨fun c' hc' => ?_, fun l hl' => by
              cases hl'; exact hl i (by simp [hla])⟩, le_refl _⟩
            rcases List.mem_cons.mp hc' with h | h
            · rw [h]; exact hl i (by simp [hla])
            · exact hc _ h
  | IfBlock =>
      simp [assignStep] at h
      obtain ⟨-, h2⟩ := h
      subst h2
      exact ⟨⟨hc, hl⟩, le_refl _⟩
  | IgnoreTest =>
      simp [assignStep] at h
      obtain ⟨-, h2⟩ := h
      subst h2
      exact ⟨⟨hc, hl⟩, le_refl _⟩

/-- The assignment walk preserves the state invariant. -/
theorem assignGo_inv {ls : List Statement} {st : AssignState}
    {out : List Statement} {st' : AssignState}
    (h : assignGo st ls = some (out, st')) (hinv : AssignInv st) :
    AssignInv st' := by
  induction ls generalizing st out with
  | nil =>
      simp [assignGo] at h
      obtain ⟨-, h2⟩ := h
      subst h2
      exact hinv
  | cons s rest ih =>
      rw [assignGo_cons] at h
      cases hs : assignStep st s with
      | none => rw [hs] at h; cases h
      | some p =>
          rw [hs, Option.some_bind] at h
          cases hr : assignGo p.2 rest with
          | none => rw [hr] at h; cases h
          | some q =>
              rw [hr, Option.map_some'] at h
              simp only [Option.some.injEq, Prod.mk.injEq] at h
              obtain ⟨-, h2⟩ := h
              subst h2
              exact ih hr (assignStep_inv hs hinv).1

/-- The assignment walk on an appended list: run the left part, then the
right part from the resulting state. -/
theorem assignGo_append (st : AssignState) (xs ys : List Statement) :
    assignGo st (xs ++ ys) =
      (assignGo st xs).bind fun p =>
        (assignGo p.2 ys).map fun q => (p.1 ++ q.1, q.2) := by
  induction xs generalizing st with
  | nil =>
      cases h : assignGo st ys with
      | none => simp [assignGo, h]
      | some q => simp [assignGo, h]
  | cons s rest ih =>
      rw [List.cons_append, assignGo_cons, assignGo_cons]
      cases hs : assignStep st s with
      | none => rfl
      | some p =>
          rw [Option.some_bind, Option.some_bind, ih p.2]
          cases hr : assignGo p.2 rest with
          | none => rfl
          | some q =>
              rw [Option.some_bind, Option.map_some', Option.some_bind]
              cases hy : assignGo q.2 ys with
              | none => rfl
              | some r => simp

/-- Assignment preserves the length of the sequence. -/
theorem assignGo_length {ls : List Statement} {st : AssignState}
    {out : List Statement} {st' : AssignState}
    (h : assignGo st ls = some (out, st')) : out.length = ls.length := by
  induction ls generalizing st out with
  | nil =>
      simp [assignGo] at h
      obtain ⟨h1, -⟩ := h
      subst h1
      rfl
  | cons s rest ih =>
      rw [assignGo_cons] at h
      cases hs : assignStep st s with
      | none => rw [hs] at h; cases h
      | some p =>
          rw [hs, Option.some_bind] at h
          cases hr : assignGo p.2 rest with
          | none => rw [hr] at h; cases h
          | some q =>
              obtain ⟨a, b⟩ := q
              rw [hr, Option.map_some'] at h
              simp only [Option.some.injEq, Prod.mk.injEq] at h
              obtain ⟨h1, h2⟩ := h
              subst h1
              subst h2
              simp [ih hr]

/-- A step on an executable leaf from an invariant-satisfying state:
some identifier is assigned, the checked set is unchanged, the assigned
identifier becomes the last emitted one and is not in the checked set. -/
theorem assignStep_exec (st : AssignState) (c : String)
    (x : Option CorrelationId) (hinv : AssignInv st) :
    ∃ i st', assignStep st (.Exec c x) = some (.Exec c (some i), st') ∧
      st'.checked = st.checked ∧ st'.last = some i ∧ i ∉ st'.checked ∧
      (∀ l, st.last = some l → l ≤ i) ∧
      st.next ≤ st'.next ∧ st'.next ≤ st.next + 1 := by
  obtain ⟨ch, n, la, w⟩ := st
  obtain ⟨hc, hl⟩ := hinv
  cases hla : la with
  | none =>
      refine ⟨n, ⟨ch, n + 1, some n, w⟩, by simp [assignStep], rfl, rfl, ?_,
        ?_, Nat.le_succ _, le_refl _⟩
      · exact fun hmem => absurd (hc _ hmem) (lt_irrefl _)
      · intro l hl'
        simp at hl'
  | some i =>
      by_cases hmem : i ∈ ch
      · refine ⟨n, ⟨ch, n + 1, some n, w⟩, by simp [assignStep, hmem],
          rfl, rfl, ?_, ?_, Nat.le_succ _, le_refl _⟩
        · exact fun hmem' => absurd (hc _ hmem') (lt_irrefl _)
        · intro l hl'
          simp only [Option.some.injEq] at hl'
          exact le_of_lt (hl l (by rw [hla, hl']))
      · refine ⟨i, ⟨ch, n, some i, w⟩, by simp [assignStep, hmem], rfl, rfl,
          hmem, ?_, le_refl _, Nat.le_succ _⟩
        intro l hl'
        simp only [Option.some.injEq] at hl'
        exact le_of_eq hl'.symm

/-- A run of executable leaves whose shared identifier has not been
checked is assigned that identifier throughout, leaving the state
unchanged. -/
theorem assignGo_execs_reuse (run : List Statement) (st : AssignState)
    (i : CorrelationId) (hl : st.last = some i) (hni : i ∉ st.checked)
    (hall : ∀ s ∈ run, ∃ c x, s = Statement.Exec c x) :
    assignGo st run = some (run.map (execWithId i), st) := by
  induction run with
  | nil => rfl
  | cons s rest ih =>
      obtain ⟨c, x, rfl⟩ := hall s (List.mem_cons_self _ _)
      obtain ⟨ch, n, la, w⟩ := st
      simp only at hl
      subst hl
      have hstep : assignStep ⟨ch, n, some i, w⟩ (.Exec c x) =
          some (.Exec c (some i), ⟨ch, n, some i, w⟩) := by
        simp [assignStep, hni]
      rw [assignGo_cons, hstep]
      simp only [Option.bind,
        ih (fun s hs => hall s (List.mem_cons_of_mem _ hs))]
      simp [execWithId]

/-- Claim C6: in any filtered leaf sequence, a run of K consecutive
executable-command leaves with no intervening check leaf is assigned one
single shared identifier by the assignment pass. -/
theorem dbt_c6_consecutive_commands_share_id
    (pre run post out : List Statement) (st : AssignState)
    (hne : run ≠ [])
    (hexec : ∀ s ∈ run, ∃ c x, s = Statement.Exec c x)
    (h : assign_correlation_ids (pre ++ run ++ post) = some (out, st)) :
    ∃ i, ∀ s ∈ (out.drop pre.length).take run.length,
      ∃ c, s = Statement.Exec c (some i) := by
  rw [assign_correlation_ids, List.append_assoc, assignGo_append] at h
  cases hpre : assignGo ⟨[], 0, none, 0⟩ pre with
  | none => rw [hpre] at h; cases h
  | some p =>
      obtain ⟨pre', st1⟩ := p
      rw [hpre, Option.some_bind] at h
      have hinv1 : AssignInv st1 :=
        assignGo_inv hpre
          ⟨fun c hc => absurd hc (List.not_mem_nil c),
           fun l hl => Option.noConfusion hl⟩
      obtain ⟨r0, rest, rfl⟩ : ∃ r0 rest, run = r0 :: rest := by
        cases run with
        | nil => exact absurd rfl hne
        | cons a b => exact ⟨a, b, rfl⟩
      obtain ⟨c0, x0, rfl⟩ := hexec _ (List.mem_cons_self _ _)
      obtain ⟨i, st2, hstep, hch, hla, hni, -, -, -⟩ :=
        assignStep_exec st1 c0 x0 hinv1
      have hrest : assignGo st2 rest =
          some (rest.map (execWithId i), st2) :=
        assignGo_execs_reuse rest st2 i hla hni
          (fun s hs => hexec s (List.mem_cons_of_mem _ hs))
      simp only [assignGo_append, assignGo_cons, hstep, hrest,
        Option.some_bind, Option.map_some'] at h
      cases hpost : assignGo st2 post with
      | none => rw [hpost] at h; cases h
      | some q =>
          rw [hpost] at h
          simp only [Option.map_some', Option.some.injEq,
            Prod.mk.injEq] at h
          obtain ⟨h1, -⟩ := h
          subst h1
          refine ⟨i, ?_⟩
          have hlenpre : pre'.length = pre.length := assignGo_length hpre


          rw [← hlenpre, List.drop_left]
          intro s hs
          simp only [List.length_cons, List.cons_append] at hs
          have htake := List.take_left
            (Statement.Exec c0 (some i) :: List.map (execWithId i) rest) q.1
          simp only [List.length_cons, List.length_map,
            List.cons_append] at htake
          rw [htake] at hs
          rcases List.mem_cons.mp hs with h | h
          · exact ⟨c0, h⟩
          · obtain ⟨s0, hs0, rfl⟩ := List.mem_map.mp h
            obtain ⟨c, x, rfl⟩ := hexec s0 (List.mem_cons_of_mem _ hs0)
            exact ⟨c, rfl⟩

/-- Witness for `dbt_c6_consecutive_commands_share_id` at a concrete
sequence: after an already-checked command, a run of two commands shares
one fresh identifier. -/
theorem dbt_c6_witness :
    ([Statement.Exec "b" none, Statement.Exec "c" none] ≠ []) ∧
    (∀ s ∈ [Statement.Exec "b" none, Statement.Exec "c" none],
      ∃ c x, s = Statement.Exec c x) ∧
    ∃ out st,
      assign_correlation_ids
        ([Statement.Exec "a" none, Statement.Check (chkOf "a") none] ++
          [Statement.Exec "b" none, Statement.Exec "c" none] ++ []) =
        some (out, st) ∧
      ∃ i, ∀ s ∈ (out.drop 2).take 2, ∃ c, s = Statement.Exec c (some i) := by
  refine ⟨by simp, ?_, ?_⟩
  · intro s hs
    rcases List.mem_cons.mp hs with h | hs
    · exact ⟨"b", none, h⟩
    rcases List.mem_cons.mp hs with h | hs
    · exact ⟨"c", none, h⟩
    · cases hs
  · refine ⟨_, _, rfl, ?_⟩
    exact dbt_c6_consecutive_commands_share_id
      [Statement.Exec "a" none, Statement.Check (chkOf "a") none]
      [Statement.Exec "b" none, Statement.Exec "c" none] [] _ _
      (by simp)
      (by
        intro s hs
        rcases List.mem_cons.mp hs with h | hs
        · exact ⟨"b", none, h⟩
        rcases List.mem_cons.mp hs with h | hs
        · exact ⟨"c", none, h⟩
        · cases hs)
      rfl

/-! ### Lemmas for noninterference of stderr and exit status -/

/-- The per-span verdict loop yields the same status core (constructor
and message) whatever captured output is attached to failures. -/
theorem processGroups_core (g : List (CorrelationId × List Statement))
    (parts : List (CorrelationId × List String)) (o₁ o₂ : DebuggerOutput) :
    (processGroups o₁ g parts).map Status.core =
    (processGroups o₂ g parts).map Status.core := by
  induction g with
  | nil => rfl
  | cons gk rest ih =>
      obtain ⟨cid, checks⟩ := gk
      cases hb : btreeGet parts cid with
      | none => simp [processGroups, hb, Status.core]
      | some output =>
          cases hr : runChecks checks 0 output with
          | none => simp [processGroups, hb, hr]
          | some idx =>
              by_cases hidx : idx = checks.length
              · simp [processGroups, hb, hr, hidx, ih]
              · cases hg : checks[idx]? with
                | none =>
                    simp [processGroups, hb, hr, hidx,
                      List.get?_eq_getElem?, hg]
                | some s =>
                    cases s <;>
                      simp [processGroups, hb, hr, hidx,
                        List.get?_eq_getElem?, hg, Status.core]

/-- A status whose core is `passed` is `Passed`. -/
theorem core_passed {s : Status} (h : s.core = .passed) : s = .Passed := by
  cases s with
  | Passed => rfl
  | Failed m o => exact absurd h (by simp [Status.core])
  | Errored => exact absurd h (by simp [Status.core])

/-- Claim C10: the verdict produced by output processing depends only on
the captured stdout: for fixed debugger and test definition, two outputs
with the same stdout give the same verdict status and message (only the
attached output object can differ); in particular a failing exit status
with fully matching stdout still yields Passed. -/
theorem dbt_c10_verdict_depends_only_on_stdout :
    (∀ (d : Debugger) (td : TestDefinition) (o₁ o₂ : DebuggerOutput),
        o₁.stdout = o₂.stdout →
        (process_debugger_output d td o₁).map Status.core =
          (process_debugger_output d td o₂).map Status.core) ∧
    (∀ (d : Debugger) (td : TestDefinition) (o : DebuggerOutput) (e : String),
        process_debugger_output d td o = some .Passed →
        process_debugger_output d td
          { stdout := o.stdout, stderr := e, exit_status := .Failure } =
          some .Passed) := by
  have hmain : ∀ (d : Debugger) (td : TestDefinition) (o₁ o₂ : DebuggerOutput),
      o₁.stdout = o₂.stdout →
      (process_debugger_output d td o₁).map Status.core =
        (process_debugger_output d td o₂).map Status.core := by
    intro d td o₁ o₂ hstd
    have hpart : debugger_output_by_correlation_id o₁ =
        debugger_output_by_correlation_id o₂ := by
      unfold debugger_output_by_correlation_id
      rw [hstd]
    cases hassign : assign_correlation_ids td.script with
    | none => simp [process_debugger_output, hassign]
    | some p =>
        obtain ⟨script, st2⟩ := p
        cases hcol : collectChecks script [] with
        | none => simp [process_debugger_output, hassign, hcol]
        | some groups =>
            cases hpo : debugger_output_by_correlation_id o₁ with
            | panics =>
                simp [process_debugger_output, hassign, hcol, ← hpart, hpo]
            | errored =>
                simp [process_debugger_output, hassign, hcol, ← hpart, hpo]
            | ok parts =>
                have hcore := processGroups_core groups parts o₁ o₂
                simp [process_debugger_output, hassign, hcol, ← hpart, hpo,
                  hcore]
  refine ⟨hmain, fun d td o e h => ?_⟩
  have h2 := hmain d td o
    { stdout := o.stdout, stderr := e, exit_status := .Failure } rfl
  rw [h] at h2
  cases hp : process_debugger_output d td
      { stdout := o.stdout, stderr := e, exit_status := .Failure } with
  | none => rw [hp] at h2; cases h2
  | some s =>
      rw [hp] at h2
      simp only [Option.map_some', Option.some.injEq] at h2
      rw [core_passed h2.symm]

/-- Witness for `dbt_c10_verdict_depends_only_on_stdout`: the same stdout
with different stderr and a failing exit indicator gives the same status;
the passing unterminated-span output stays Passed with a failing exit. -/
theorem dbt_c10_witness :
    unterminatedOutput.stdout =
      (DebuggerOutput.mk unterminatedOutput.stdout "boom" .Failure).stdout ∧
    (process_debugger_output Debugger.mock tdNoChecks
        unterminatedOutput).map Status.core =
      (process_debugger_output Debugger.mock tdNoChecks
        (DebuggerOutput.mk unterminatedOutput.stdout "boom" .Failure)).map
        Status.core ∧
    process_debugger_output Debugger.mock tdNoChecks
      (DebuggerOutput.mk unterminatedOutput.stdout "boom" .Failure) =
      some .Passed :=
  ⟨rfl,
   dbt_c10_verdict_depends_only_on_stdout.1 Debugger.mock tdNoChecks
     unterminatedOutput
     (DebuggerOutput.mk unterminatedOutput.stdout "boom" .Failure) rfl,
   dbt_c10_verdict_depends_only_on_stdout.2 Debugger.mock tdNoChecks
     unterminatedOutput "boom" (by rfl)⟩

/-! ### Digit rendering and parsing lemmas -/

theorem digitsAux_eq (fuel : Nat) : ∀ n, n ≤ fuel →
    digitsAux n fuel = Nat.digits 10 n := by
  induction fuel with
  | zero =>
      intro n hn
      have : n = 0 := Nat.le_zero.mp hn
      subst this
      simp [digitsAux]
  | succ f ih =>
      intro n hn
      by_cases hn0 : n = 0
      · subst hn0; simp [digitsAux]
      · have hdiv : n / 10 < n := Nat.div_lt_self (Nat.pos_of_ne_zero hn0)
          (by norm_num)
        rw [digitsAux, if_neg hn0, ih (n / 10) (by omega),
          Nat.digits_def' (by norm_num : 1 < 10) (Nat.pos_of_ne_zero hn0)]

theorem nat10Digits_eq (n : Nat) : nat10Digits n = Nat.digits 10 n :=
  digitsAux_eq n n (le_refl n)

theorem digitChar_toNat {d : Nat} (hd : d < 10) :
    (Char.ofNat (48 + d)).toNat = 48 + d := by
  interval_cases d <;> decide

theorem digitChar_isDigit {d : Nat} (hd : d < 10) :
    (Char.ofNat (48 + d)).isDigit = true := by
  interval_cases d <;> decide

theorem digitChar_props {d : Nat} (hd : d < 10) :
    Char.ofNat (48 + d) ≠ '\n' ∧ Char.ofNat (48 + d) ≠ '\r' ∧
    Char.ofNat (48 + d) ≠ '=' ∧ Char.ofNat (48 + d) ≠ '+' := by
  interval_cases d <;> refine ⟨by decide, by decide, by decide, by decide⟩

/-- Every character of the decimal rendering is a decimal digit. -/
theorem natReprU32_digits (n : Nat) :
    ∀ ch ∈ (natReprU32 n).data, ∃ d, d < 10 ∧ ch = Char.ofNat (48 + d) := by
  intro ch hch
  by_cases hn : n = 0
  · subst hn
    simp only [natReprU32, if_pos rfl] at hch
    have hch0 : ch = '0' := by simpa using hch
    exact ⟨0, by norm_num, by rw [hch0]⟩
  · simp only [natReprU32, if_neg hn] at hch
    obtain ⟨d, hd, rfl⟩ := List.mem_map.mp hch
    have : d ∈ Nat.digits 10 n := by
      rw [← nat10Digits_eq]
      exact List.mem_reverse.mp hd
    exact ⟨d, Nat.digits_lt_base (by norm_num) this, rfl⟩

theorem foldl_digit_chars (M : List Nat) (hM : ∀ d ∈ M, d < 10) :
    ∀ a, List.foldl (fun acc c => acc * 10 + (c.toNat - 48)) a
        (M.map fun d => Char.ofNat (48 + d)) =
      M.foldl (fun acc d => acc * 10 + d) a := by
  induction M with
  | nil => intro a; rfl
  | cons d M' ih =>
      intro a
      have hd : d < 10 := hM d (List.mem_cons_self _ _)
      simp only [List.map_cons, List.foldl_cons, digitChar_toNat hd,
        Nat.add_sub_cancel_left]
      exact ih (fun d' hd' => hM d' (List.mem_cons_of_mem _ hd')) _

theorem foldl_reverse_ofDigits (L : List Nat) :
    L.reverse.foldl (fun acc d => acc * 10 + d) 0 = Nat.ofDigits 10 L := by
  induction L with
  | nil => rfl
  | cons d L' ih =>
      rw [List.reverse_cons, List.foldl_append, ih, Nat.ofDigits_cons]
      simp [Nat.mul_comm]
      omega

/-- The decimal rendering of a `u32` parses back to the same value. -/
theorem parseU32_natReprU32 (n : Nat) (hn : n < 2 ^ 32) :
    parseU32 (natReprU32 n).data = some n := by
  by_cases hn0 : n = 0
  · subst hn0; rfl
  · have hmem := natReprU32_digits n
    have hdata : (natReprU32 n).data =
        (Nat.digits 10 n).reverse.map fun d => Char.ofNat (48 + d) := by
      simp [natReprU32, hn0, nat10Digits_eq]
    have hne : (natReprU32 n).data ≠ [] := by
      rw [hdata]
      simp [Nat.digits_ne_nil_iff_ne_zero, hn0]
    obtain ⟨c0, rest, hcons⟩ : ∃ c0 rest,
        (natReprU32 n).data = c0 :: rest := by
      cases h : (natReprU32 n).data with
      | nil => exact absurd h hne
      | cons a b => exact ⟨a, b, rfl⟩
    have hc0 : c0 ≠ '+' := by
      obtain ⟨d, hd, rfl⟩ := hmem c0 (by
        rw [hcons]; exact List.mem_cons_self _ _)
      exact (digitChar_props hd).2.2.2
    have hall : ((c0 :: rest : List Char)).all Char.isDigit = true := by
      rw [← hcons, List.all_eq_true]
      intro ch hch
      obtain ⟨d, hd, rfl⟩ := hmem ch hch
      exact digitChar_isDigit hd
    have hfold : ((c0 :: rest : List Char)).foldl
        (fun a c => a * 10 + (c.toNat - 48)) 0 = n := by
      rw [← hcons, hdata, foldl_digit_chars _ (fun d hd =>
        Nat.digits_lt_base (by norm_num) (List.mem_reverse.mp hd)),
        foldl_reverse_ofDigits, Nat.ofDigits_digits]
    rw [hcons]
    simp only [parseU32, if_neg hc0]
    rw [if_neg (by simp : ¬(c0 :: rest : List Char) = [])]
    rw [if_pos hall, hfold, if_pos hn]

/-! ### Marker line lemmas -/

theorem listIsPrefix_append_self (p t : List Char) :
    listIsPrefix p (p ++ t) = true := by
  induction p with
  | nil => rfl
  | cons c p' ih => simp [listIsPrefix, ih]

theorem beginLine_startsWith_begin (i : CorrelationId) :
    strStartsWith (beginLine i) CORRELATION_ID_BEGIN_MARKER = true := by
  unfold strStartsWith beginLine
  rw [String.data_append]
  exact listIsPrefix_append_self _ _

theorem endLine_startsWith_end (i : CorrelationId) :
    strStartsWith (endLine i) CORRELATION_ID_END_MARKER = true := by
  unfold strStartsWith endLine
  rw [String.data_append]
  exact listIsPrefix_append_self _ _

theorem endLine_not_begin (i : CorrelationId) :
    strStartsWith (endLine i) CORRELATION_ID_BEGIN_MARKER = false := by
  unfold strStartsWith endLine
  rw [String.data_append]
  exact rfl

theorem beginLine_not_end (i : CorrelationId) :
    strStartsWith (beginLine i) CORRELATION_ID_END_MARKER = false := by
  unfold strStartsWith beginLine
  rw [String.data_append]
  exact rfl

theorem afterLastEq_none (l : List Char) (h : '=' ∉ l) :
    afterLastEq l = none := by
  induction l with
  | nil => rfl
  | cons c rest ih =>
      have hc : ¬(c = '=') := fun e => h (e ▸ List.mem_cons_self _ _)
      have hrest : '=' ∉ rest := fun hm => h (List.mem_cons_of_mem _ hm)
      simp [afterLastEq, ih hrest, hc]

theorem afterLastEq_append (ys ds : List Char) (hds : '=' ∉ ds) :
    afterLastEq (ys ++ '=' :: ds) = some ds := by
  induction ys with
  | nil => simp [afterLastEq, afterLastEq_none ds hds]
  | cons y ys' ih => simp [afterLastEq, ih]

theorem natReprU32_no_eq (i : Nat) : '=' ∉ (natReprU32 i).data := by
  intro hm
  obtain ⟨d, hd, he⟩ := natReprU32_digits i '=' hm
  exact (digitChar_props hd).2.2.1 he.symm

theorem extract_beginLine (i : CorrelationId) (hi : i < 2 ^ 32) :
    extract_correlation_id (beginLine i) = some i := by
  unfold extract_correlation_id beginLine
  rw [String.data_append]
  have hb : CORRELATION_ID_BEGIN_MARKER.data =
      "__output_with_correlation_id_begin__".data ++ ['='] := rfl
  rw [hb, List.append_assoc, List.singleton_append,
    afterLastEq_append _ _ (natReprU32_no_eq i)]
  simp [parseU32_natReprU32 i hi]

theorem noNlCr_natReprU32 (i : Nat) :
    ∀ ch ∈ (natReprU32 i).data, ch ≠ '\n' ∧ ch ≠ '\r' := by
  intro ch hch
  obtain ⟨d, hd, rfl⟩ := natReprU32_digits i ch hch
  exact ⟨(digitChar_props hd).1, (digitChar_props hd).2.1⟩

theorem noNlCr_beginLine (i : CorrelationId) : noNlCr (beginLine i) := by
  intro ch hch
  rw [beginLine, String.data_append] at hch
  rcases List.mem_append.mp hch with h | h
  · revert h
    have : ∀ c ∈ CORRELATION_ID_BEGIN_MARKER.data,
        c ≠ '\n' ∧ c ≠ '\r' := by decide
    exact this ch
  · exact noNlCr_natReprU32 i ch h

theorem noNlCr_endLine (i : CorrelationId) : noNlCr (endLine i) := by
  intro ch hch
  rw [endLine, String.data_append] at hch
  rcases List.mem_append.mp hch with h | h
  · revert h
    have : ∀ c ∈ CORRELATION_ID_END_MARKER.data,
        c ≠ '\n' ∧ c ≠ '\r' := by decide
    exact this ch
  · exact noNlCr_natReprU32 i ch h

/-! ### Facts about the assigned leaf sequence -/

theorem assignStep_nonexec {st : AssignState} {s s' : Statement}
    {st' : AssignState} (h : assignStep st s = some (s', st'))
    (hs : ∀ c x, s ≠ Statement.Exec c x) :
    st'.last = st.last ∧ st'.next = st.next ∧
    ∀ c x, s' ≠ Statement.Exec c x := by
  obtain ⟨ch, n, la, w⟩ := st
  cases s with
  | Exec c x => exact absurd rfl (hs c x)
  | Check chk x =>
      cases hla : la with
      | none =>
          simp [assignStep, hla] at h
          obtain ⟨h1, h2⟩ := h
          subst h1; subst h2
          exact ⟨rfl, rfl, fun c x hh => Statement.noConfusion hh⟩
      | some i =>
          by_cases hmem : i ∈ ch
          · simp [assignStep, hla, hmem] at h
          · simp [assignStep, hla, hmem] at h
            obtain ⟨h1, h2⟩ := h
            subst h1; subst h2
            exact ⟨rfl, rfl, fun c x hh => Statement.noConfusion hh⟩
  | CheckUnorderedBlock chks x =>
      cases hla : la with
      | none =>
          simp [assignStep, hla] at h
          obtain ⟨h1, h2⟩ := h
          subst h1; subst h2
          exact ⟨rfl, rfl, fun c x hh => Statement.noConfusion hh⟩
      | some i =>
          by_cases hmem : i ∈ ch
          · simp [assignStep, hla, hmem] at h
          · simp [assignStep, hla, hmem] at h
            obtain ⟨h1, h2⟩ := h
            subst h1; subst h2
            exact ⟨rfl, rfl, fun c x hh => Statement.noConfusion hh⟩
  | IfBlock =>
      simp [assignStep] at h
      obtain ⟨h1, h2⟩ := h
      subst h1; subst h2
      exact ⟨rfl, rfl, fun c x hh => Statement.noConfusion hh⟩
  | IgnoreTest =>
      simp [assignStep] at h
      obtain ⟨h1, h2⟩ := h
      subst h1; subst h2
      exact ⟨rfl, rfl, fun c x hh => Statement.noConfusion hh⟩

theorem execIds_cons_nonexec {s : Statement} (rest : List Statement)
    (hs : ∀ c x, s ≠ Statement.Exec c x) :
    execIds (s :: rest) = execIds rest := by
  cases s with
  | Exec c x => exact absurd rfl (hs c x)
  | Check chk x => rfl
  | CheckUnorderedBlock chks x => rfl
  | IfBlock => rfl
  | IgnoreTest => rfl

/-- The key facts about the output of the assignment walk from an
invariant-satisfying state: every executable leaf gets some identifier and
keeps its command text; the identifiers are non-decreasing (continuing the
last emitted one); every identifier is below the final counter; and the
counter grows by at most the number of leaves. -/
theorem assignGo_out_facts {ls : List Statement} {st : AssignState}
    {out : List Statement} {st' : AssignState}
    (h : assignGo st ls = some (out, st')) (hinv : AssignInv st) :
    (∀ c x, Statement.Exec c x ∈ out →
        (∃ i, x = some i) ∧ ∃ x₀, Statement.Exec c x₀ ∈ ls) ∧
    List.Chain' (· ≤ ·) (st.last.toList ++ execIds out) ∧
    (∀ i ∈ execIds out, i < st'.next) ∧
    st.next ≤ st'.next ∧ st'.next ≤ st.next + ls.length := by
  induction ls generalizing st out with
  | nil =>
      simp [assignGo] at h
      obtain ⟨h1, h2⟩ := h
      subst h1; subst h2
      refine ⟨fun c x hm => absurd hm (List.not_mem_nil _), ?_,
        fun i hi => absurd hi (List.not_mem_nil _), le_refl _, by simp⟩
      cases st.last <;> simp [execIds]
  | cons s rest ih =>
      rw [assignGo_cons] at h
      cases hs : assignStep st s with
      | none => rw [hs] at h; cases h
      | some p =>
          obtain ⟨s1, st1⟩ := p
          rw [hs, Option.some_bind] at h
          cases hr : assignGo st1 rest with
          | none => rw [hr] at h; cases h
          | some q =>
              obtain ⟨rest1, st2⟩ := q
              rw [hr, Option.map_some'] at h
              simp only [Option.some.injEq, Prod.mk.injEq] at h
              obtain ⟨hout, hst⟩ := h
              subst hout; subst hst
              have hinv1 : AssignInv st1 := (assignStep_inv hs hinv).1
              obtain ⟨ihmem, ihchain, ihbound, ihmono, ihlen⟩ := ih hr hinv1
              by_cases hexec : ∃ c x, s = Statement.Exec c x
              · obtain ⟨c, x, rfl⟩ := hexec
                obtain ⟨i, st1', hstep, hch, hla, hni, hle, hn1, hn2⟩ :=
                  assignStep_exec st c x hinv
                rw [hstep] at hs
                simp only [Option.some.injEq, Prod.mk.injEq] at hs
                obtain ⟨hs1, hs2⟩ := hs
                subst hs1
                subst hs2
                refine ⟨?_, ?_, ?_, ?_, ?_⟩
                · intro c' x' hm
                  rcases List.mem_cons.mp hm with hm | hm
                  · obtain ⟨he1, he2⟩ := Statement.Exec.inj hm
                    subst he1; subst he2
                    exact ⟨⟨i, rfl⟩, ⟨x, List.mem_cons_self _ _⟩⟩
                  · obtain ⟨hsome, x₀, hmem₀⟩ := ihmem c' x' hm
                    exact ⟨hsome, ⟨x₀, List.mem_cons_of_mem _ hmem₀⟩⟩
                · show List.Chain' (· ≤ ·)
                    (st.last.toList ++ i :: execIds rest1)
                  rw [hla] at ihchain
                  cases hlast : st.last with
                  | none => simpa using ihchain
                  | some l =>
                      simp only [Option.toList, List.cons_append,
                        List.nil_append] at ihchain ⊢
                      exact List.chain'_cons.mpr
                        ⟨hle l hlast, by simpa using ihchain⟩
                · show ∀ j ∈ i :: execIds rest1, j < st2.next
                  intro j hj
                  rcases List.mem_cons.mp hj with hj | hj
                  · rw [hj]
                    exact lt_of_lt_of_le (hinv1.2 i hla) ihmono
                  · exact ihbound j hj
                · exact le_trans hn1 ihmono
                · simp only [List.length_cons]
                  omega
              · have hnx : ∀ c x, s ≠ Statement.Exec c x := by
                  intro c x he
                  exact hexec ⟨c, x, he⟩
                obtain ⟨hlast1, hnext1, hs1nx⟩ := assignStep_nonexec hs hnx
                rw [execIds_cons_nonexec rest1 hs1nx]
                refine ⟨?_, ?_, ihbound, by omega, by
                  simp only [List.length_cons]; omega⟩
                · intro c' x' hm
                  rcases List.mem_cons.mp hm with hm | hm
                  · exact absurd hm.symm (hs1nx c' x')
                  · obtain ⟨hsome, x₀, hmem₀⟩ := ihmem c' x' hm
                    exact ⟨hsome, ⟨x₀, List.mem_cons_of_mem _ hmem₀⟩⟩
                · rw [← hlast1]
                  exact ihchain

/-! ### Emission lemmas (mock backend) -/

theorem joinLines_nil : joinLines [] = "" := rfl

theorem joinLines_cons (l : String) (ls : List String) :
    joinLines (l :: ls) = l ++ "\n" ++ joinLines ls := rfl

theorem joinLines_append (a b : List String) :
    joinLines (a ++ b) = joinLines a ++ joinLines b := by
  induction a with
  | nil => apply String.ext; simp [joinLines_nil, String.data_append]
  | cons l a' ih =>
      apply String.ext
      simp [joinLines_cons, String.data_append, ih]

theorem empty_string_data : ("" : String).data = [] := rfl

theorem newline_string_data : ("\n" : String).data = ['\n'] := rfl

/-- Emission while a span is open: the text plus the final close marker
spell out the span-continuation lines. -/
theorem emitCommands_mock_cont (script : List Statement) :
    ∀ i, (∀ c x, Statement.Exec c x ∈ script → ∃ j, x = some j) →
    (emitCommands .Mock script (some i)).1 ++
      maybe_emit_correlation_id_command .Mock false
        (emitCommands .Mock script (some i)).2 =
    joinLines (spanLinesCont i (execPairs script)) := by
  induction script with
  | nil =>
      intro i hsome
      apply String.ext
      simp [emitCommands, maybe_emit_correlation_id_command, spanLinesCont,
        joinLines_cons, joinLines_nil, execPairs, endLine,
        String.data_append, empty_string_data]
  | cons s rest ih =>
      intro i hsome
      cases s with
      | Exec c x =>
          obtain ⟨j, rfl⟩ := hsome c x (List.mem_cons_self _ _)
          have ihj : ∀ k, (emitCommands .Mock rest (some k)).1 ++
              maybe_emit_correlation_id_command .Mock false
                (emitCommands .Mock rest (some k)).2 =
              joinLines (spanLinesCont k (execPairs rest)) := fun k =>
            ih k (fun c' x' hm => hsome c' x' (List.mem_cons_of_mem _ hm))
          by_cases hj : j = i
          · subst hj
            cases hemit : emitCommands DebuggerKind.Mock rest (some j) with
            | mk s1 l1 =>
                have ihd : s1.data ++
                    (maybe_emit_correlation_id_command
                      DebuggerKind.Mock false l1).data =
                    (joinLines (spanLinesCont j (execPairs rest))).data := by
                  have hcd := congrArg String.data (ihj j)
                  rw [hemit] at hcd
                  simpa [String.data_append] using hcd
                apply String.ext
                simp only [emitCommands]
                rw [if_neg (by simp : ¬((some j : Option CorrelationId) ≠
                  some j)), if_neg (by simp :
                  ¬((some j : Option CorrelationId) ≠ some j)), hemit]
                have hsl : spanLinesCont j
                    (execPairs (Statement.Exec c (some j) :: rest)) =
                    c :: spanLinesCont j (execPairs rest) := by
                  simp [execPairs, spanLinesCont]
                rw [hsl]
                simp only [joinLines_cons, String.data_append,
                  empty_string_data, newline_string_data,
                  List.append_assoc, List.nil_append]
                rw [ihd]
          · cases hemit : emitCommands DebuggerKind.Mock rest (some j) with
            | mk s1 l1 =>
                have ihd : s1.data ++
                    (maybe_emit_correlation_id_command
                      DebuggerKind.Mock false l1).data =
                    (joinLines (spanLinesCont j (execPairs rest))).data := by
                  have hcd := congrArg String.data (ihj j)
                  rw [hemit] at hcd
                  simpa [String.data_append] using hcd
                apply String.ext
                simp only [emitCommands]
                rw [if_pos (by simp [Ne.symm hj] :
                    ((some i : Option CorrelationId) ≠ some j)),
                  if_pos (by simp [Ne.symm hj] :
                    ((some i : Option CorrelationId) ≠ some j)), hemit]
                have hm1 : maybe_emit_correlation_id_command
                    DebuggerKind.Mock false (some i) =
                    CORRELATION_ID_END_MARKER ++ natReprU32 i ++ "\n" := by
                  simp [maybe_emit_correlation_id_command]
                have hm2 : maybe_emit_correlation_id_command
                    DebuggerKind.Mock true (some j) =
                    CORRELATION_ID_BEGIN_MARKER ++ natReprU32 j ++ "\n" := by
                  simp [maybe_emit_correlation_id_command]
                have hsl : spanLinesCont i
                    (execPairs (Statement.Exec c (some j) :: rest)) =
                    endLine i :: beginLine j :: c ::
                      spanLinesCont j (execPairs rest) := by
                  simp [execPairs, spanLinesCont, hj]
                rw [hm1, hm2, hsl]
                simp only [joinLines_cons, endLine, beginLine,
                  String.data_append, empty_string_data,
                  newline_string_data, List.append_assoc, List.nil_append]
                rw [ihd]
      | Check chk x =>
          simp only [emitCommands, execPairs]
          exact ih i (fun c' x' hm => hsome c' x' (List.mem_cons_of_mem _ hm))
      | CheckUnorderedBlock chks x =>
          simp only [emitCommands, execPairs]
          exact ih i (fun c' x' hm => hsome c' x' (List.mem_cons_of_mem _ hm))
      | IfBlock =>
          simp only [emitCommands, execPairs]
          exact ih i (fun c' x' hm => hsome c' x' (List.mem_cons_of_mem _ hm))
      | IgnoreTest =>
          simp only [emitCommands, execPairs]
          exact ih i (fun c' x' hm => hsome c' x' (List.mem_cons_of_mem _ hm))

/-- Emission of the whole command stream: the body text plus the final
close marker spell out all span lines. -/
theorem emitCommands_mock_start (script : List Statement) :
    (∀ c x, Statement.Exec c x ∈ script → ∃ j, x = some j) →
    (emitCommands .Mock script none).1 ++
      maybe_emit_correlation_id_command .Mock false
        (emitCommands .Mock script none).2 =
    joinLines (spanLinesAll (execPairs script)) := by
  induction script with
  | nil => intro hsome; rfl
  | cons s rest ih =>
      intro hsome
      cases s with
      | Exec c x =>
          obtain ⟨j, rfl⟩ := hsome c x (List.mem_cons_self _ _)
          cases hemit : emitCommands DebuggerKind.Mock rest (some j) with
          | mk s1 l1 =>
              have ihd : s1.data ++
                  (maybe_emit_correlation_id_command
                    DebuggerKind.Mock false l1).data =
                  (joinLines (spanLinesCont j (execPairs rest))).data := by
                have hcd := congrArg String.data
                  (emitCommands_mock_cont rest j
                    (fun c' x' hm => hsome c' x' (List.mem_cons_of_mem _ hm)))
                rw [hemit] at hcd
                simpa [String.data_append] using hcd
              apply String.ext
              simp only [emitCommands]
              rw [if_pos (by simp : (none : Option CorrelationId) ≠ some j),
                if_pos (by simp : (none : Option CorrelationId) ≠ some j),
                hemit]
              have hm0 : maybe_emit_correlation_id_command
                  DebuggerKind.Mock false none = "" := rfl
              have hm2 : maybe_emit_correlation_id_command
                  DebuggerKind.Mock true (some j) =
                  CORRELATION_ID_BEGIN_MARKER ++ natReprU32 j ++ "\n" := by
                simp [maybe_emit_correlation_id_command]
              have hsl : spanLinesAll
                  (execPairs (Statement.Exec c (some j) :: rest)) =
                  beginLine j :: c :: spanLinesCont j (execPairs rest) := by
                simp [execPairs, spanLinesAll]
              rw [hm0, hm2, hsl]
              simp only [joinLines_cons, beginLine, String.data_append,
                empty_string_data, newline_string_data, List.append_assoc,
                List.nil_append]
              rw [ihd]
      | Check chk x =>
          simp only [emitCommands, execPairs]
          exact ih (fun c' x' hm => hsome c' x' (List.mem_cons_of_mem _ hm))
      | CheckUnorderedBlock chks x =>
          simp only [emitCommands, execPairs]
          exact ih (fun c' x' hm => hsome c' x' (List.mem_cons_of_mem _ hm))
      | IfBlock =>
          simp only [emitCommands, execPairs]
          exact ih (fun c' x' hm => hsome c' x' (List.mem_cons_of_mem _ hm))
      | IgnoreTest =>
          simp only [emitCommands, execPairs]
          exact ih (fun c' x' hm => hsome c' x' (List.mem_cons_of_mem _ hm))

/-! ### Round trip of `joinLines` through `rustLines` -/

theorem splitNl_safe_cons (l : List Char) (rest : List Char)
    (hnl : '\n' ∉ l) :
    splitNl (l ++ '\n' :: rest) = l :: splitNl rest := by
  induction l with
  | nil => simp [splitNl]
  | cons c l' ih =>
      have hc : ¬(c = '\n') := fun e => hnl (e ▸ List.mem_cons_self _ _)
      have h' : '\n' ∉ l' := fun hm => hnl (List.mem_cons_of_mem _ hm)
      rw [List.cons_append, splitNl, if_neg hc, ih h']

theorem splitNl_joinLines (ls : List String)
    (h : ∀ l ∈ ls, '\n' ∉ l.data) :
    splitNl (joinLines ls).data = ls.map String.data ++ [[]] := by
  induction ls with
  | nil => rfl
  | cons l ls' ih =>
      have hdata : (joinLines (l :: ls')).data =
          l.data ++ '\n' :: (joinLines ls').data := by
        rw [joinLines_cons]
        simp [String.data_append, newline_string_data]
      rw [hdata, splitNl_safe_cons _ _ (h l (List.mem_cons_self _ _)),
        ih (fun l' hl' => h l' (List.mem_cons_of_mem _ hl'))]
      rfl

/-- Splitting the joined lines back recovers the lines, provided each
line holds no newline and no carriage return. -/
theorem rustLines_joinLines (ls : List String)
    (hsafe : ∀ l ∈ ls, noNlCr l) :
    rustLines (joinLines ls) = ls := by
  have hnl : ∀ l ∈ ls, '\n' ∉ l.data := fun l hl hm =>
    ((hsafe l hl) '\n' hm).1 rfl
  rw [rustLines]
  rw [splitNl_joinLines ls hnl]
  have hlast : (ls.map String.data ++ [[]]).getLast? = some [] := by
    simp [List.getLast?_append]
  rw [if_pos hlast, List.dropLast_concat]
  have : ∀ l ∈ ls, stripCr l.data = l.data := by
    intro l hl
    rw [stripCr]
    rw [if_neg]
    intro hcr
    have hmem : '\r' ∈ l.data := List.mem_of_mem_getLast? hcr
    exact ((hsafe l hl) '\r' hmem).2 rfl
  rw [List.map_map]
  calc ls.map (fun l => (⟨stripCr l.data⟩ : String))
      = ls.map id := by
        apply List.map_congr_left
        intro l hl
        rw [this l hl]
        rfl
    _ = ls := List.map_id ls

/-! ### Partitioning the emitted span lines -/

theorem btreeInsert_append (m : List (CorrelationId × List String))
    (k : CorrelationId) (v : List String) (h : ∀ q ∈ m, q.1 < k) :
    btreeInsert m k v = m ++ [(k, v)] := by
  induction m with
  | nil => rfl
  | cons q rest ih =>
      obtain ⟨k', v'⟩ := q
      have hk' : k' < k := h (k', v') (List.mem_cons_self _ _)
      rw [btreeInsert, if_neg (Nat.lt_asymm hk'), if_neg (ne_of_gt hk'),
        ih (fun q hq => h q (List.mem_cons_of_mem _ hq))]
      rfl

/-- Step: a begin-marker line with no open span and an extractable
identifier opens that span. -/
theorem partitionGo_step_begin (line : String) (rest : List String)
    (acc : List (CorrelationId × List String)) (j : CorrelationId)
    (hb : strStartsWith line CORRELATION_ID_BEGIN_MARKER = true)
    (hex : extract_correlation_id line = some j) :
    partitionGo (line :: rest) none [] acc =
      partitionGo rest (some j) [] acc := by
  rw [partitionGo, if_pos hb, if_pos rfl, hex]

/-- Step: an end-marker line closes the open span. -/
theorem partitionGo_step_end (line : String) (rest : List String)
    (curLines : List String) (acc : List (CorrelationId × List String))
    (i : CorrelationId)
    (hb : strStartsWith line CORRELATION_ID_BEGIN_MARKER = false)
    (he : strStartsWith line CORRELATION_ID_END_MARKER = true) :
    partitionGo (line :: rest) (some i) curLines acc =
      partitionGo rest none [] (btreeInsert acc i curLines) := by
  rw [partitionGo, if_neg (by rw [hb]; exact Bool.false_ne_true),
    if_pos he]

/-- Step: an ordinary line inside a span is appended to the span. -/
theorem partitionGo_step_line (line : String) (rest : List String)
    (curLines : List String) (acc : List (CorrelationId × List String))
    (i : CorrelationId)
    (hb : strStartsWith line CORRELATION_ID_BEGIN_MARKER = false)
    (he : strStartsWith line CORRELATION_ID_END_MARKER = false) :
    partitionGo (line :: rest) (some i) curLines acc =
      partitionGo rest (some i) (curLines ++ [line]) acc := by
  rw [partitionGo, if_neg (by rw [hb]; exact Bool.false_ne_true),
    if_neg (by rw [he]; exact Bool.false_ne_true)]

/-- Step: an ordinary line outside any span is discarded. -/
theorem partitionGo_step_drop (line : String) (rest : List String)
    (curLines : List String) (acc : List (CorrelationId × List String))
    (hb : strStartsWith line CORRELATION_ID_BEGIN_MARKER = false)
    (he : strStartsWith line CORRELATION_ID_END_MARKER = false) :
    partitionGo (line :: rest) none curLines acc =
      partitionGo rest none curLines acc := by
  rw [partitionGo, if_neg (by rw [hb]; exact Bool.false_ne_true),
    if_neg (by rw [he]; exact Bool.false_ne_true)]

theorem partitionGo_skip (ls : List String) (rest : List String)
    (acc : List (CorrelationId × List String))
    (hls : ∀ l ∈ ls, strStartsWith l CORRELATION_ID_BEGIN_MARKER = false ∧
      strStartsWith l CORRELATION_ID_END_MARKER = false) :
    partitionGo (ls ++ rest) none [] acc = partitionGo rest none [] acc := by
  induction ls with
  | nil => rfl
  | cons l ls' ih =>
      obtain ⟨h1, h2⟩ := hls l (List.mem_cons_self _ _)
      rw [List.cons_append, partitionGo_step_drop l _ _ _ h1 h2]
      exact ih (fun l' hl' => hls l' (List.mem_cons_of_mem _ hl'))

theorem partitionGo_cont (ps : List (CorrelationId × String)) :
    ∀ (i : CorrelationId) (cur : List String)
      (acc : List (CorrelationId × List String)),
    List.Chain' (· ≤ ·) (i :: ps.map Prod.fst) →
    (∀ j ∈ ps.map Prod.fst, j < 2 ^ 32) →
    (∀ p ∈ ps, strStartsWith p.2 CORRELATION_ID_BEGIN_MARKER = false ∧
      strStartsWith p.2 CORRELATION_ID_END_MARKER = false) →
    (∀ q ∈ acc, q.1 < i) →
    partitionGo (spanLinesCont i ps) (some i) cur acc =
      .ok (acc ++ groupCont i cur ps) := by
  induction ps with
  | nil =>
      intro i cur acc hchain hbound hcmds hacc
      rw [spanLinesCont,
        partitionGo_step_end _ _ _ _ _ (endLine_not_begin i)
          (endLine_startsWith_end i),
        btreeInsert_append acc i cur hacc]
      rfl
  | cons p ps' ih =>
      intro i cur acc hchain hbound hcmds hacc
      obtain ⟨j, c⟩ := p
      by_cases hji : j = i
      · subst hji
        obtain ⟨hc1, hc2⟩ := hcmds (j, c) (List.mem_cons_self _ _)
        rw [spanLinesCont, if_pos rfl,
          partitionGo_step_line _ _ _ _ _ hc1 hc2,
          groupCont, if_pos rfl]
        exact ih j (cur ++ [c]) acc
          (by
            simp only [List.map_cons] at hchain
            exact (List.chain'_cons.mp hchain).2)
          (fun k hk => hbound k (by simp [hk]))
          (fun p hp => hcmds p (List.mem_cons_of_mem _ hp))
          hacc
      · have h1 : i ≤ j := by
          simp only [List.map_cons] at hchain
          exact (List.chain'_cons.mp hchain).1
        have hij : i < j := Nat.lt_of_le_of_ne h1 (fun e => hji e.symm)
        have hjb : j < 2 ^ 32 := hbound j (by simp)
        obtain ⟨hc1, hc2⟩ := hcmds (j, c) (List.mem_cons_self _ _)
        rw [spanLinesCont, if_neg hji,
          partitionGo_step_end _ _ _ _ _ (endLine_not_begin i)
            (endLine_startsWith_end i),
          btreeInsert_append acc i cur hacc,
          partitionGo_step_begin _ _ _ j (beginLine_startsWith_begin j)
            (extract_beginLine j hjb),
          partitionGo_step_line _ _ _ _ _ hc1 hc2,
          groupCont, if_neg hji]
        have hrec := ih j ([] ++ [c]) (acc ++ [(i, cur)])
          (by
            simp only [List.map_cons] at hchain
            exact (List.chain'_cons.mp hchain).2)
          (fun k hk => hbound k (by simp [hk]))
          (fun p hp => hcmds p (List.mem_cons_of_mem _ hp))
          (by
            intro q hq
            rcases List.mem_append.mp hq with hq | hq
            · exact lt_trans (hacc q hq) hij
            · have hq' : q = (i, cur) := List.mem_singleton.mp hq
              rw [hq']
              exact hij)
        rw [show ([] : List String) ++ [c] = [c] from rfl] at hrec
        rw [List.nil_append, hrec]
        simp [List.append_assoc]

theorem partitionGo_all (ps : List (CorrelationId × String))
    (hchain : List.Chain' (· ≤ ·) (ps.map Prod.fst))
    (hbound : ∀ j ∈ ps.map Prod.fst, j < 2 ^ 32)
    (hcmds : ∀ p ∈ ps,
      strStartsWith p.2 CORRELATION_ID_BEGIN_MARKER = false ∧
      strStartsWith p.2 CORRELATION_ID_END_MARKER = false) :
    partitionGo (spanLinesAll ps) none [] [] = .ok (groupSpans ps) := by
  cases ps with
  | nil => rfl
  | cons p ps' =>
      obtain ⟨i, c⟩ := p
      have hib : i < 2 ^ 32 := hbound i (by simp)
      obtain ⟨hc1, hc2⟩ := hcmds (i, c) (List.mem_cons_self _ _)
      rw [spanLinesAll,
        partitionGo_step_begin _ _ _ i (beginLine_startsWith_begin i)
          (extract_beginLine i hib),
        partitionGo_step_line _ _ _ _ _ hc1 hc2,
        groupSpans]
      have hrec := partitionGo_cont ps' i ([] ++ [c]) []
        (by simpa using hchain)
        (fun k hk => hbound k (by simp [hk]))
        (fun p hp => hcmds p (List.mem_cons_of_mem _ hp))
        (fun q hq => absurd hq (List.not_mem_nil q))
      rw [show ([] : List String) ++ [c] = [c] from rfl] at hrec
      rw [List.nil_append, hrec, List.nil_append]

/-! ### Glue lemmas for the round trip -/

theorem execIds_eq_map (ls : List Statement) :
    execIds ls = (execPairs ls).map Prod.fst := by
  induction ls with
  | nil => rfl
  | cons s rest ih =>
      cases s with
      | Exec c x =>
          cases x with
          | none => simpa [execIds, execPairs] using ih
          | some i => simpa [execIds, execPairs] using ih
      | Check chk x => simpa [execIds, execPairs] using ih
      | CheckUnorderedBlock chks x => simpa [execIds, execPairs] using ih
      | IfBlock => simpa [execIds, execPairs] using ih
      | IgnoreTest => simpa [execIds, execPairs] using ih

theorem execPairs_mem {ls : List Statement} {j : CorrelationId} {c : String}
    (h : (j, c) ∈ execPairs ls) : Statement.Exec c (some j) ∈ ls := by
  induction ls with
  | nil => cases h
  | cons s rest ih =>
      cases s with
      | Exec c' x =>
          cases x with
          | none => exact List.mem_cons_of_mem _ (ih h)
          | some i =>
              rw [execPairs] at h
              rcases List.mem_cons.mp h with he | he
              · obtain ⟨h1, h2⟩ := Prod.mk.inj he
                subst h1; subst h2
                exact List.mem_cons_self _ _
              · exact List.mem_cons_of_mem _ (ih he)
      | Check chk x => exact List.mem_cons_of_mem _ (ih h)
      | CheckUnorderedBlock chks x => exact List.mem_cons_of_mem _ (ih h)
      | IfBlock => exact List.mem_cons_of_mem _ (ih h)
      | IgnoreTest => exact List.mem_cons_of_mem _ (ih h)

theorem spanLinesCont_pred (P : String → Prop)
    (hbegin : ∀ j, P (beginLine j)) (hend : ∀ j, P (endLine j))
    (ps : List (CorrelationId × String)) (hc : ∀ p ∈ ps, P p.2) :
    ∀ i, ∀ l ∈ spanLinesCont i ps, P l := by
  induction ps with
  | nil =>
      intro i l hl
      rcases List.mem_singleton.mp hl with rfl
      exact hend i
  | cons p ps' ih =>
      intro i l hl
      obtain ⟨j, c⟩ := p
      by_cases hji : j = i
      · subst hji
        rw [spanLinesCont, if_pos rfl] at hl
        rcases List.mem_cons.mp hl with rfl | hl
        · exact hc (j, l) (List.mem_cons_self _ _)
        · exact ih (fun p hp => hc p (List.mem_cons_of_mem _ hp)) j l hl
      · rw [spanLinesCont, if_neg hji] at hl
        rcases List.mem_cons.mp hl with rfl | hl
        · exact hend i
        rcases List.mem_cons.mp hl with rfl | hl
        · exact hbegin j
        rcases List.mem_cons.mp hl with rfl | hl
        · exact hc (j, l) (List.mem_cons_self _ _)
        · exact ih (fun p hp => hc p (List.mem_cons_of_mem _ hp)) j l hl

theorem spanLinesAll_pred (P : String → Prop)
    (hbegin : ∀ j, P (beginLine j)) (hend : ∀ j, P (endLine j))
    (ps : List (CorrelationId × String)) (hc : ∀ p ∈ ps, P p.2) :
    ∀ l ∈ spanLinesAll ps, P l := by
  cases ps with
  | nil => intro l hl; cases hl
  | cons p ps' =>
      intro l hl
      obtain ⟨i, c⟩ := p
      rw [spanLinesAll] at hl
      rcases List.mem_cons.mp hl with rfl | hl
      · exact hbegin i
      rcases List.mem_cons.mp hl with rfl | hl
      · exact hc (i, l) (List.mem_cons_self _ _)
      · exact spanLinesCont_pred P hbegin hend ps'
          (fun p hp => hc p (List.mem_cons_of_mem _ hp)) i l hl

theorem bpLine_not_begin (base : List Char) (bp : Breakpoint) :
    strStartsWith (bpLine base bp) CORRELATION_ID_BEGIN_MARKER = false := by
  rfl

theorem bpLine_not_end (base : List Char) (bp : Breakpoint) :
    strStartsWith (bpLine base bp) CORRELATION_ID_END_MARKER = false := by
  rfl

theorem noNlCr_bpLine (base : List Char)
    (hbase : ∀ ch ∈ base, ch ≠ '\n' ∧ ch ≠ '\r') (bp : Breakpoint) :
    noNlCr (bpLine base bp) := by
  intro ch hch
  rw [bpLine] at hch
  simp only [String.data_append] at hch
  rcases List.mem_append.mp hch with hch | hch
  · rcases List.mem_append.mp hch with hch | hch
    · rcases List.mem_append.mp hch with hch | hch
      · rcases List.mem_append.mp hch with hch | hch
        · revert hch
          have : ∀ c ∈ ("bp `" : String).data, c ≠ '\n' ∧ c ≠ '\r' := by
            decide
          exact this ch
        · exact hbase ch hch
      · revert hch
        have : ∀ c ∈ (":" : String).data, c ≠ '\n' ∧ c ≠ '\r' := by decide
        exact this ch
    · exact noNlCr_natReprU32 _ ch hch
  · revert hch
    have : ∀ c ∈ ("`" : String).data, c ≠ '\n' ∧ c ≠ '\r' := by decide
    exact this ch

/-- `foldlM` over a function that never fails is a plain fold. -/
theorem foldlM_all_some {α β : Type} (f : β → α → Option β) (g : β → α → β)
    (hfg : ∀ b a, f b a = some (g b a)) (l : List α) :
    ∀ b, List.foldlM f b l = some (List.foldl g b l) := by
  induction l with
  | nil => intro b; rfl
  | cons a l' ih =>
      intro b
      rw [List.foldlM_cons, hfg, List.foldl_cons]
      exact ih (g b a)

theorem foldl_bpText (base : List Char) (bps : List Breakpoint) :
    ∀ acc : String,
    List.foldl (fun acc bp => acc ++ "bp `" ++ (⟨base⟩ : String) ++ ":" ++
      natReprU32 (bp.line_index + 1) ++ "`\n") acc bps =
    acc ++ joinLines (bpLines base bps) := by
  induction bps with
  | nil =>
      intro acc
      apply String.ext
      simp [bpLines, joinLines_nil, String.data_append, empty_string_data]
  | cons bp bps' ih =>
      intro acc
      rw [List.foldl_cons, ih]
      apply String.ext
      simp [bpLines, joinLines_cons, bpLine, String.data_append,
        List.append_assoc]

/-- Mock breakpoint emission joins the breakpoint lines. -/
theorem emit_breakpoints_mock (name : String) (base : List Char)
    (bps : List Breakpoint) (script : List Statement)
    (hname : afterLastSlash name.data = some base) :
    emit_breakpoints Debugger.mock
      { name := name, script := script, breakpoints := bps } =
    some (joinLines (bpLines base bps)) := by
  rw [emit_breakpoints]
  rw [foldlM_all_some _
    (fun acc bp => acc ++ "bp `" ++ (⟨base⟩ : String) ++ ":" ++
      natReprU32 (bp.line_index + 1) ++ "`\n")
    (by
      intro b a
      simp only [Debugger.mock, hname]
      rfl)
    bps ""]
  rw [foldl_bpText]
  apply congrArg
  apply String.ext
  simp [String.data_append, empty_string_data]

/-- Claim C7, counterexample: a directive sequence whose single command
is itself a begin-marker line synthesizes fine, but partitioning the
mock-echoed script aborts with Errored instead of reproducing the span
`[(0, [command])]`: partitioning is not the inverse of synthesis for every
directive sequence. -/
theorem dbt_c7_counterexample :
    generate_debugger_script Debugger.mock tdMarkerCmd =
      some ("__output_with_correlation_id_begin__=0\n" ++
        "__output_with_correlation_id_begin__=0\n" ++
        "__output_with_correlation_id_end__=0\n") ∧
    debugger_output_by_correlation_id (create_mock_debugger_output
      ("__output_with_correlation_id_begin__=0\n" ++
        "__output_with_correlation_id_begin__=0\n" ++
        "__output_with_correlation_id_end__=0\n")) = .errored ∧
    (PartitionResult.errored ≠
      .ok [(0, ["__output_with_correlation_id_begin__=0"])]) := by
  refine ⟨by decide, by decide, by decide⟩

/-- Claim C7, amended: provided identifier assignment succeeds, every
executable command is a single line (no newline or carriage return) not
beginning with either correlation marker, the test name has a base file
name after a `/` that is newline-free, and there are fewer than `2 ^ 32`
leaves, partitioning the script synthesized for the mock backend (whose
run echoes the script back as stdout) reproduces, for each correlation
identifier, exactly the ordered command lines emitted inside that
identifier's span, with prelude and breakpoint lines outside any span
discarded. -/
theorem dbt_c7_partition_inverts_synthesis (name : String)
    (base : List Char) (bps : List Breakpoint)
    (leaves script : List Statement) (stF : AssignState)
    (hname : afterLastSlash name.data = some base)
    (hbase : ∀ ch ∈ base, ch ≠ '\n' ∧ ch ≠ '\r')
    (hassign : assign_correlation_ids leaves = some (script, stF))
    (hcmds : ∀ c x, Statement.Exec c x ∈ leaves → safeCommand c)
    (hlen : leaves.length < 2 ^ 32) :
    ∃ s, generate_debugger_script Debugger.mock
        { name := name, script := leaves, breakpoints := bps } = some s ∧
      debugger_output_by_correlation_id (create_mock_debugger_output s) =
        .ok (groupSpans (execPairs script)) := by
  have hinv0 : AssignInv
      { checked := [], next := 0, last := none, warnings := 0 } :=
    ⟨fun c hc => absurd hc (List.not_mem_nil c),
     fun l hl => Option.noConfusion hl⟩
  have hassign' := hassign
  rw [assign_correlation_ids] at hassign'
  obtain ⟨hmem, hchain, hboundN, hmono, hlenb⟩ :=
    assignGo_out_facts hassign' hinv0
  have hsome : ∀ c x, Statement.Exec c x ∈ script → ∃ i, x = some i :=
    fun c x hm => (hmem c x hm).1
  have hcmdSafe : ∀ p ∈ execPairs script, safeCommand p.2 := by
    intro p hp
    obtain ⟨j, c⟩ := p
    have hx := execPairs_mem hp
    obtain ⟨-, x₀, hm₀⟩ := hmem c (some j) hx
    exact hcmds c x₀ hm₀
  cases hemit : emitCommands DebuggerKind.Mock script none with
  | mk body last =>
      have hbody : body ++ maybe_emit_correlation_id_command
          DebuggerKind.Mock false last =
          joinLines (spanLinesAll (execPairs script)) := by
        have hst := emitCommands_mock_start script hsome
        rw [hemit] at hst
        exact hst
      have hbp := emit_breakpoints_mock name base bps leaves hname
      have hpre : emit_script_prelude Debugger.mock = some "" := rfl
      refine ⟨"" ++ joinLines (bpLines base bps) ++ body ++
        maybe_emit_correlation_id_command DebuggerKind.Mock false last,
        ?_, ?_⟩
      · simp only [generate_debugger_script, hpre, hbp, hassign]
        rw [show Debugger.mock.kind = DebuggerKind.Mock from rfl, hemit]
      · have hsjoin : ("" : String) ++ joinLines (bpLines base bps) ++
            body ++ maybe_emit_correlation_id_command
              DebuggerKind.Mock false last =
            joinLines (bpLines base bps ++
              spanLinesAll (execPairs script)) := by
          rw [joinLines_append]
          apply String.ext
          have hbd := congrArg String.data hbody
          simp only [String.data_append] at hbd ⊢
          simp only [empty_string_data, List.nil_append, List.append_assoc]
          rw [← hbd]
        have hlines : rustLines (("" : String) ++
            joinLines (bpLines base bps) ++ body ++
            maybe_emit_correlation_id_command DebuggerKind.Mock false last) =
            bpLines base bps ++ spanLinesAll (execPairs script) := by
          rw [hsjoin]
          apply rustLines_joinLines
          intro l hl
          rcases List.mem_append.mp hl with hl | hl
          · simp only [bpLines] at hl
            obtain ⟨bp, hbp', rfl⟩ := List.mem_map.mp hl
            exact noNlCr_bpLine base hbase bp
          · exact spanLinesAll_pred noNlCr noNlCr_beginLine noNlCr_endLine
              (execPairs script)
              (fun p hp => (hcmdSafe p hp).1) l hl
        rw [debugger_output_by_correlation_id]
        show partitionGo (rustLines (("" : String) ++
          joinLines (bpLines base bps) ++ body ++
          maybe_emit_correlation_id_command DebuggerKind.Mock false last))
          none [] [] = PartitionResult.ok (groupSpans (execPairs script))
        rw [hlines]
        rw [partitionGo_skip _ _ _ (by
          intro l hl
          simp only [bpLines] at hl
          obtain ⟨bp, hbp', rfl⟩ := List.mem_map.mp hl
          exact ⟨bpLine_not_begin base bp, bpLine_not_end base bp⟩)]
        apply partitionGo_all
        · rw [← execIds_eq_map]
          simpa using hchain
        · intro j hj
          rw [← execIds_eq_map] at hj
          have hjn := hboundN j hj
          have h0 : ((⟨[], 0, none, 0⟩ : AssignState)).next = 0 := rfl
          rw [h0] at hlenb
          have h1 : stF.next ≤ leaves.length := by simpa using hlenb
          exact lt_of_lt_of_le hjn (h1.trans (le_of_lt hlen))
        · intro p hp
          exact ⟨(hcmdSafe p hp).2.1, (hcmdSafe p hp).2.2⟩

/-- Witness for `dbt_c7_partition_inverts_synthesis` at the round-trip
test sequence with one breakpoint. -/
theorem dbt_c7_witness :
    (afterLastSlash ("a/b" : String).data = some ['b']) ∧
    (∀ ch ∈ (['b'] : List Char), ch ≠ '\n' ∧ ch ≠ '\r') ∧
    (assign_correlation_ids tdRoundtrip.script =
      some ([Statement.Exec "print abc" (some 0),
        Statement.Check (chkOf "__abc__") (some 0),
        Statement.Exec "print xyz" (some 1),
        Statement.Check (chkOf "__xyz__") (some 1)],
        (⟨[1, 0], 2, some 1, 0⟩ : AssignState))) ∧
    (∀ c x, Statement.Exec c x ∈ tdRoundtrip.script → safeCommand c) ∧
    tdRoundtrip.script.length < 2 ^ 32 ∧
    ∃ s, generate_debugger_script Debugger.mock
        { name := "a/b", script := tdRoundtrip.script,
          breakpoints := [⟨2⟩] } = some s ∧
      debugger_output_by_correlation_id (create_mock_debugger_output s) =
        .ok (groupSpans (execPairs
          [Statement.Exec "print abc" (some 0),
           Statement.Check (chkOf "__abc__") (some 0),
           Statement.Exec "print xyz" (some 1),
           Statement.Check (chkOf "__xyz__") (some 1)])) := by
  have hcmds : ∀ c x, Statement.Exec c x ∈ tdRoundtrip.script →
      safeCommand c := by
    intro c x hm
    rcases List.mem_cons.mp hm with he | hm
    · obtain ⟨h1, -⟩ := Statement.Exec.inj he
      subst h1
      exact ⟨by decide, by decide, by decide⟩
    rcases List.mem_cons.mp hm with he | hm
    · exact Statement.noConfusion he
    rcases List.mem_cons.mp hm with he | hm
    · obtain ⟨h1, -⟩ := Statement.Exec.inj he
      subst h1
      exact ⟨by decide, by decide, by decide⟩
    rcases List.mem_cons.mp hm with he | hm
    · exact Statement.noConfusion he
    · cases hm
  refine ⟨by decide, by decide, rfl, hcmds, by decide, ?_⟩
  exact dbt_c7_partition_inverts_synthesis "a/b" ['b'] [⟨2⟩]
    tdRoundtrip.script
    [Statement.Exec "print abc" (some 0),
     Statement.Check (chkOf "__abc__") (some 0),
     Statement.Exec "print xyz" (some 1),
     Statement.Check (chkOf "__xyz__") (some 1)]
    (⟨[1, 0], 2, some 1, 0⟩ : AssignState)
    (by decide) (by decide) rfl hcmds (by decide)

end Dbt
